import Mathlib

/-!
# Verification of the writing-improvement pipeline core

Shallow embedding of the pipeline core of the `writing-improvement-ui`
repository (TypeScript), together with proofs of the spec's claims about it.

Embedded source functions:
* `AnthropicAPI.evaluateBatch`            (anthropicApi, current revision)
* `AnthropicAPI.filterRelevantMessagesLLM`
* `AnthropicAPI.processQueue` / `queueRequest` (request scheduler)
* `AnthropicAPI.cleanJSONResponse`
* `AnthropicAPI.gradePracticeSession` / `calculateSimilarity` / `extractLetter`
* `AnthropicAPI.generateComparisonAnalysis` (score-comparison arithmetic)
* `filterMessagesHeuristic`               (src/utils/chatLogParser.ts)

Modelling conventions:
* Dynamically-typed JSON values returned by the model are represented by the
  inductive type `JVal`; JavaScript truthiness is `JVal.truthy`, the
  `x || d` default idiom is `jsOr`, and property access on a dynamic value is
  `getField` (non-objects have no properties, so access yields `undefined`).
* JavaScript numbers are modelled as `Int` (scores) or `Rat` (averages);
  the IEEE special values produced by division are modelled explicitly by
  `JsF` (finite / Infinity / -Infinity / NaN).  NaN arising from arithmetic
  on ordinary finite values is outside the model.
* The network / LLM boundary is an oracle parameter: per batch index the
  oracle yields `none` for "the call or the JSON parse threw" and
  `some v` for "the sanitized response parsed to the JSON value v".
* Strings manipulated character-by-character (the sanitizer) are modelled as
  `List Char`; `String` wrappers are provided at the boundary.
-/

/-- The backtick character, written via its code point. -/
def btk : Char := Char.ofNat 96

/-- JavaScript whitespace (the `\s` class restricted to its ASCII members:
space, tab, newline, carriage return, vertical tab, form feed). -/
def isJsWs (c : Char) : Bool :=
  c = ' ' || c = '\t' || c = '\n' || c = '\r' || c = Char.ofNat 11 || c = Char.ofNat 12

/-- A dynamically-typed JSON value as produced by `JSON.parse`.
`undefinedV` is JavaScript's `undefined` (the result of out-of-range indexing and
of property access on values that lack the property). -/
inductive JVal where
  | undefinedV : JVal
  | null : JVal
  | bool (b : Bool) : JVal
  | num (n : Int) : JVal
  | str (s : String) : JVal
  | arr (xs : List JVal) : JVal
  | obj (fields : List (String × JVal)) : JVal

/-- JavaScript truthiness: `undefined`, `null`, `false`, `0` and `""` are
falsy, everything else (including `[]` and `{}`) is truthy. -/
def JVal.truthy : JVal → Bool
  | .undefinedV => false
  | .null => false
  | .bool b => b
  | .num n => n != 0
  | .str s => s ≠ ""
  | .arr _ => true
  | .obj _ => true

/-- The JavaScript `x || d` defaulting idiom. -/
def jsOr (x d : JVal) : JVal := if x.truthy then x else d

/-- Property access `v.name` on a dynamic value: objects look the name up,
every other (truthy) value yields `undefined`.  (The source only accesses
properties on values it has checked to be truthy.) -/
def getField (v : JVal) (name : String) : JVal :=
  match v with
  | .obj fields => (fields.lookup name).getD .undefinedV
  | _ => .undefinedV

/-- A pipeline message: `{id, text}` (interface `Message`). -/
structure Message where
  id : String
  text : String
deriving DecidableEq, Repr

/-- An evaluation record (interface `EvaluationResult`).  The score and issue
fields are dynamic (`JVal`) because the source copies whatever the model
returned (after `|| 3` / `|| []` defaulting) without further validation. -/
structure EvaluationResult where
  message_id : String
  text : String
  grammar_score : JVal
  punctuation_score : JVal
  tone_score : JVal
  grammar_issues : JVal
  punctuation_issues : JVal
  tone_issues : JVal

/-- Source `evaluateBatch`, lines 432-444: the record built when the parsed batch
array has no (truthy) entry at this message's position. -/
def noEvalRecord (m : Message) : EvaluationResult :=
  { message_id := m.id
    text := m.text
    grammar_score := .num 3
    punctuation_score := .num 3
    tone_score := .num 3
    grammar_issues := .arr [.str "Error: No evaluation returned"]
    punctuation_issues := .arr []
    tone_issues := .arr [] }

/-- Source `evaluateBatch`, lines 455-468: the placeholder record built for every
message of a batch whose model call, JSON parse, or array-shape check threw. -/
def batchErrorRecord (m : Message) : EvaluationResult :=
  { message_id := m.id
    text := m.text
    grammar_score := .num 3
    punctuation_score := .num 3
    tone_score := .num 3
    grammar_issues := .arr [.str "Error evaluating this message"]
    punctuation_issues := .arr []
    tone_issues := .arr [] }

/-- Source `evaluateBatch`, lines 420-444: build one record from the original
message and the model's array entry at the same position (`undefined` when
the parsed array is too short). -/
def recordFromSlot (m : Message) (slot : JVal) : EvaluationResult :=
  if slot.truthy then
    { message_id := m.id
      text := m.text
      grammar_score := jsOr (getField slot "grammar_score") (.num 3)
      punctuation_score := jsOr (getField slot "punctuation_score") (.num 3)
      tone_score := jsOr (getField slot "tone_score") (.num 3)
      grammar_issues := jsOr (getField slot "grammar_issues") (.arr [])
      punctuation_issues := jsOr (getField slot "punctuation_issues") (.arr [])
      tone_issues := jsOr (getField slot "tone_issues") (.arr []) }
  else noEvalRecord m

/-- The inner `for (let j ...)` loop of `evaluateBatch` on the success path:
pair message `j` of the batch with parsed-array entry `j`. -/
def evalRows (slots : List JVal) : Nat → List Message → List EvaluationResult
  | _, [] => []
  | j, m :: ms => recordFromSlot m ((slots.get? j).getD .undefinedV) :: evalRows slots (j + 1) ms

/-- One batch of `evaluateBatch`: `none` = the model call / parse / array
check threw (catch block, placeholder records); `some slots` = the response
parsed to the array `slots`. -/
def evalBatchStep (batch : List Message) (resp : Option (List JVal)) : List EvaluationResult :=
  match resp with
  | none => batch.map batchErrorRecord
  | some slots => evalRows slots 0 batch

/-- The batching loop of `evaluateBatch` (`batchSize = 5`, line 351):
slice 5 messages, consult the oracle for that batch's parsed response,
append the batch's records.  The oracle is indexed by batch number. -/
def evaluateBatchGo (oracle : Nat → Option (List JVal)) :
    Nat → List Message → List EvaluationResult
  | _, [] => []
  | b, m1 :: m2 :: m3 :: m4 :: m5 :: rest =>
      evalBatchStep [m1, m2, m3, m4, m5] (oracle b) ++ evaluateBatchGo oracle (b + 1) rest
  | b, ms => evalBatchStep ms (oracle b)

/-- Source `AnthropicAPI.evaluateBatch` (anthropicApi, lines 347-492), with the
network/LLM boundary abstracted as `oracle`. -/
def evaluateBatch (messages : List Message) (oracle : Nat → Option (List JVal)) :
    List EvaluationResult :=
  evaluateBatchGo oracle 0 messages

/-- The record `evaluateBatch` builds for within-batch position `j` given the
batch's parsed response (`none` = the batch threw). -/
def recordAt (resp : Option (List JVal)) (j : Nat) (m : Message) : EvaluationResult :=
  match resp with
  | none => batchErrorRecord m
  | some slots => recordFromSlot m ((slots.get? j).getD .undefinedV)

/-- Strict equality to the boolean literal `true` (`results[idx] === true`,
line 307 of `filterRelevantMessagesLLM`). -/
def isTrueLit : JVal → Bool
  | .bool true => true
  | _ => false

/-- The `batch.forEach((msg, idx) => if (results[idx] === true) ...)` loop of
`filterRelevantMessagesLLM` (lines 306-310): keep message `idx` exactly when
the parsed array's entry at `idx` is strictly the boolean `true`. -/
def keepGo (xs : List JVal) : Nat → List Message → List Message
  | _, [] => []
  | j, m :: ms =>
    if isTrueLit ((xs.get? j).getD .undefinedV) then m :: keepGo xs (j + 1) ms
    else keepGo xs (j + 1) ms

/-- One batch of `filterRelevantMessagesLLM` (lines 291-321).
`none` = the model call or `JSON.parse` threw (catch block: keep the whole
batch); `some v` = the sanitized response parsed to `v`: a non-array or an
array whose length differs from the batch keeps the whole batch, otherwise
exactly the strictly-`true` entries are kept. -/
def confirmStep (batch : List Message) (resp : Option JVal) : List Message :=
  match resp with
  | none => batch
  | some (.arr xs) => if xs.length = batch.length then keepGo xs 0 batch else batch
  | some _ => batch

/-- The batching loop of `filterRelevantMessagesLLM` (lines 245-331),
parametric in the batch size (default 10 in the source).  The `bs = 0` guard
is unreachable from the source's callers (a zero batch size would make the
JavaScript `for` loop spin forever). -/
def filterRelevantGo (oracle : Nat → Option JVal) (bs : Nat) : Nat → List Message → List Message
  | _, [] => []
  | b, m :: rest =>
    if _h : bs = 0 then []
    else
      confirmStep ((m :: rest).take bs) (oracle b) ++
        filterRelevantGo oracle bs (b + 1) ((m :: rest).drop bs)
termination_by _ msgs => msgs.length
decreasing_by
  simp only [List.length_drop, List.length_cons]
  omega

/-- Source `AnthropicAPI.filterRelevantMessagesLLM` (lines 231-340), network/LLM
boundary abstracted as an oracle from batch index to parsed response. -/
def filterRelevantMessagesLLM (messages : List Message) (batchSize : Nat)
    (oracle : Nat → Option JVal) : List Message :=
  filterRelevantGo oracle batchSize 0 messages

/-- Source `MIN_REQUEST_INTERVAL` (anthropicApi line 79): 1000 ms between requests. -/
def MIN_REQUEST_INTERVAL : Nat := 1000

/-- A task in the request queue, as the drain loop sees it: when it was
enqueued, how long its awaited request runs, and whether that request
rejects.  The wrapper closure pushed by `queueRequest` (lines 90-98) catches
the task's exception and routes it to that task's own caller, so the drain
loop's `await request()` always resolves whatever `fails` is. -/
structure QTask where
  arrival : Nat
  duration : Nat
  fails : Bool
deriving DecidableEq, Repr

/-- The start time `processQueue` (lines 114-126) gives the task at the head
of the queue.  `last` is `lastRequestTime`; `clock` is `Date.now()` at the
top of the loop iteration — the previous task's completion while the loop
keeps draining, or the arrival that re-invoked `processQueue` after the queue
had emptied, whichever is later. -/
def startOf (last clock : Nat) (t : QTask) : Nat :=
  let now := max clock t.arrival
  let timeSinceLastRequest := now - last
  if timeSinceLastRequest < MIN_REQUEST_INTERVAL then
    now + (MIN_REQUEST_INTERVAL - timeSinceLastRequest)
  else now

/-- Source `processQueue` (lines 107-132) as explicit state passing over the FIFO
queue (`push`/`shift` make list order the enqueue order).  Returns each
task's `(start, finish)` interval in queue order.  After a task completes,
`lastRequestTime` is set to its completion time (line 127) and the loop's
next `Date.now()` is that same instant, hence the `fin fin` recursion. -/
def schedRun (last clock : Nat) : List QTask → List (Nat × Nat)
  | [] => []
  | t :: rest =>
    let s := startOf last clock t
    let fin := s + t.duration
    (s, fin) :: schedRun fin fin rest

/-- A JavaScript number that may be one of the IEEE special values produced
by dividing by zero: finite (exact rational), `Infinity`, `-Infinity`, `NaN`. -/
inductive JsF where
  | fin (q : Rat) : JsF
  | inf : JsF
  | ninf : JsF
  | nan : JsF
deriving DecidableEq, Repr

/-- JavaScript `a / b` on finite operands: division by zero yields
`Infinity` / `-Infinity` by the sign of the dividend and `NaN` for `0 / 0`;
otherwise the exact quotient. -/
def jsDiv (a b : Rat) : JsF :=
  if b = 0 then (if 0 < a then .inf else if a < 0 then .ninf else .nan)
  else .fin (a / b)

/-- Multiplication of a JavaScript number by a positive finite constant
(the `× 100` in `changePercent`): infinities and `NaN` are preserved. -/
def jsMulPos (x : JsF) (c : Rat) : JsF :=
  match x with
  | .fin q => .fin (q * c)
  | .inf => .inf
  | .ninf => .ninf
  | .nan => .nan

/-- The three score averages of an `Analysis.summary`. -/
structure SummaryAvgs where
  avg_grammar_score : Rat
  avg_punctuation_score : Rat
  avg_tone_score : Rat
deriving DecidableEq, Repr

/-- One dimension of the `comparison` object of
`generateComparisonAnalysis` (lines 1002-1021). -/
structure DimComparison where
  baseline : Rat
  followup : Rat
  change : Rat
  changePercent : JsF
deriving DecidableEq, Repr

/-- Source `change` and `changePercent` for one dimension, exactly as computed at
lines 1003-1020: `change = followup - baseline`,
`changePercent = (followup - baseline) / baseline * 100` with JavaScript
division semantics (no guard on a zero baseline). -/
def dimCompare (b f : Rat) : DimComparison :=
  { baseline := b
    followup := f
    change := f - b
    changePercent := jsMulPos (jsDiv (f - b) b) 100 }

/-- The per-dimension score comparison of `generateComparisonAnalysis`. -/
structure ScoreComparison where
  grammar : DimComparison
  punctuation : DimComparison
  tone : DimComparison
deriving DecidableEq, Repr

/-- The `comparison` object computed by `generateComparisonAnalysis`
(lines 1001-1021) from the two analyses' summary averages. -/
def makeComparison (b f : SummaryAvgs) : ScoreComparison :=
  { grammar := dimCompare b.avg_grammar_score f.avg_grammar_score
    punctuation := dimCompare b.avg_punctuation_score f.avg_punctuation_score
    tone := dimCompare b.avg_tone_score f.avg_tone_score }

/-- JavaScript `String.prototype.toLowerCase` (ASCII-relevant part). -/
def toLowerChars (l : List Char) : List Char := l.map Char.toLower

/-- JavaScript `haystack.includes(pat)`: substring containment. -/
def containsSub (pat : List Char) : List Char → Bool
  | [] => pat.isEmpty
  | c :: cs => pat.isPrefixOf (c :: cs) || containsSub pat cs

mutual
/-- Source `text.split(/\s+/)`: split on whitespace runs.  A leading run produces a
leading empty element, a trailing run a trailing empty element, and the empty
string yields one empty element — exactly JavaScript's semantics, which the
source's `wordCount` inherits.  `cur` is the (reversed) part being built. -/
def jsSplitRun (cur : List Char) : List Char → List (List Char)
  | [] => [cur.reverse]
  | c :: cs => if isJsWs c then cur.reverse :: jsSplitSkip cs else jsSplitRun (c :: cur) cs
/-- State after consuming at least one whitespace character of a run. -/
def jsSplitSkip : List Char → List (List Char)
  | [] => [[]]
  | c :: cs => if isJsWs c then jsSplitSkip cs else jsSplitRun [c] cs
end

/-- Source `msg.text.split(/\s+/)` as a list of parts. -/
def jsSplitWs (l : List Char) : List (List Char) := jsSplitRun [] l

/-- Source `const wordCount = msg.text.split(/\s+/).length` (chatLogParser
line 273). -/
def jsWordCount (text : List Char) : Nat := (jsSplitWs text).length

/-- Source `writingKeywords` (chatLogParser.ts lines 197-221), verbatim. -/
def writingKeywords : List String :=
  ["write", "writing", "edit", "editing", "proofread", "revise",
   "revision", "rewrite", "rephrase", "grammar", "punctuation",
   "tone", "sentence", "paragraph", "draft", "feedback", "format",
   "essay", "paper", "report", "document", "analysis", "argument",
   "summary", "thesis", "dissertation", "abstract", "introduction",
   "conclusion", "reflection", "response", "notes", "jot notes",
   "chapter summary", "quote integration", "bibliography",
   "reference", "citation", "cite", "peer review", "manuscript",
   "publication", "academic", "formal", "professional",
   "story", "scene", "narrative", "creative", "prompt",
   "email", "letter", "cover letter", "linkedin", "message",
   "statement", "personal statement", "supplementary essay",
   "application writing", "proposal", "presentation", "speech",
   "expand", "shorten", "make it human", "sound more human"]

/-- Source `excludeKeywords` (chatLogParser.ts lines 224-253), verbatim. -/
def excludeKeywords : List String :=
  ["debug this code", "syntax error", "compile error", "stack trace",
   "test coverage", "unit test", "function definition",
   "code", "python", "javascript", "sql", "html", "css", "racket",
   "algorithm", "compute", "compile", "schema", "erd", "erd diagram",
   "normal form", "1nf", "2nf", "3nf", "query",
   "solve for x", "calculate the", "find the derivative",
   "solve this equation", "what is the integral",
   "limit", "derivative", "vector", "matrix", "complex number",
   "velocity", "acceleration", "force", "momentum", "energy",
   "projectile", "work", "kinetic", "potential",
   "molecule", "reaction", "glycolysis", "atp",
   "workout routine", "sets and reps", "bench press program",
   "workout", "squat", "deadlift", "reps", "sets", "cardio",
   "quiz", "test", "multiple choice", "practice problems",
   "solve for", "answer key",
   "recipe for", "how to cook", "movie recommendation",
   "game walkthrough", "song lyrics", "game", "movie", "song", "video"]

/-- The per-message decision of `filterMessagesHeuristic`
(chatLogParser.ts lines 263-307): reject if under 10 words; accept on any
writing keyword; reject on any exclusion keyword; else accept when it looks
like prose. -/
def keepMessage (text : List Char) : Bool :=
  let lower := toLowerChars text
  let wc := jsWordCount text
  if wc < 10 then false
  else if writingKeywords.any (fun kw => containsSub kw.data lower) then true
  else if excludeKeywords.any (fun kw => containsSub kw.data lower) then false
  else
    let hasPunctuation := containsSub ['.'] text
    let multipleSentences := decide (2 ≤ text.count '.')
    let longEnough := decide (15 ≤ wc)
    let hasQuestionMark := containsSub ['?'] text
    (hasPunctuation && longEnough) || multipleSentences ||
      (hasQuestionMark && decide (15 ≤ wc))

/-- Source `filterMessagesHeuristic` (chatLogParser.ts lines 186-330): the
`forEach`-and-push loop is a filter by `keepMessage` (progress callbacks and
the stats counters only log). -/
def filterMessagesHeuristic (messages : List Message) : List Message :=
  messages.filter (fun m => keepMessage m.text.data)

/-- Claim C6's decision procedure, stated in the claim's own clause order:
(1) reject word count < 10, (2) else accept on a writing keyword, (3) else
reject on an exclusion keyword, (4) else accept exactly on the prose test
(period and 15 or more words, or two or more periods, or a question mark and
15 or more words). -/
def heuristicClaimC6 (text : List Char) : Bool :=
  if jsWordCount text < 10 then false
  else if writingKeywords.any (fun kw => containsSub kw.data (toLowerChars text)) then true
  else if excludeKeywords.any (fun kw => containsSub kw.data (toLowerChars text)) then false
  else
    (containsSub ['.'] text && decide (15 ≤ jsWordCount text)) ||
    decide (2 ≤ text.count '.') ||
    (containsSub ['?'] text && decide (15 ≤ jsWordCount text))

/-- JavaScript `String.prototype.trim` on the left. -/
def trimLeftChars (l : List Char) : List Char := l.dropWhile (fun c => isJsWs c)

/-- JavaScript `String.prototype.trim` on the right. -/
def trimRightChars (l : List Char) : List Char :=
  (l.reverse.dropWhile (fun c => isJsWs c)).reverse

/-- JavaScript `String.prototype.trim`. -/
def trimChars (l : List Char) : List Char := trimRightChars (trimLeftChars l)

/-- The punctuation class removed by `calculateSimilarity`
(`/[.,!?;:]/g`, line 917). -/
def isSimPunct (c : Char) : Bool :=
  c = '.' || c = ',' || c = '!' || c = '?' || c = ';' || c = ':'

/-- Source `clean.split(/\s+/).filter(w => w.length > 0)` after punctuation removal
(lines 917-921): the nonempty whitespace-separated words. -/
def simWords (s : List Char) : List (List Char) :=
  (jsSplitWs (s.filter (fun c => !isSimPunct c))).filter (fun w => w.length > 0)

/-- Source `AnthropicAPI.calculateSimilarity` (lines 915-929): Jaccard similarity
of the two word sets.  JavaScript `Set`s are modelled by `List.dedup`; only
the sizes of the intersection and union enter the result, so which duplicate
survives is irrelevant.  The quotient is exact (`Rat`) where the source uses
double division; the score thresholds compared against (0.90, 0.75) are not
sensitive to that difference for the set sizes at hand. -/
def calculateSimilarity (str1 str2 : List Char) : Rat :=
  let words1 := (simWords str1).dedup
  let words2 := (simWords str2).dedup
  let inter := words1.filter (fun w => words2.contains w)
  let union := (words1 ++ words2).dedup
  if union.length = 0 then 0
  else (inter.length : Rat) / (union.length : Rat)

/-- JavaScript `\w` (word character): `[A-Za-z0-9_]`. -/
def isWordChar (c : Char) : Bool := c.isAlpha || c.isDigit || c = '_'

/-- Scan for the first `\b([A-D])` match (`extractLetter`'s regex, line 908):
a letter A-D whose preceding character (if any) is not a word character. -/
def extractLetterGo (prev : Option Char) : List Char → Option Char
  | [] => none
  | c :: cs =>
    if (c = 'A' || c = 'B' || c = 'C' || c = 'D') &&
        (match prev with | none => true | some p => !isWordChar p) then some c
    else extractLetterGo (some c) cs

/-- Source `AnthropicAPI.extractLetter` (lines 907-910): the captured letter of the
first `\b([A-D])\)?` match on the uppercased text, else the first character
of the uppercased, trimmed text, else the empty string. -/
def extractLetter (text : List Char) : List Char :=
  let up := text.map Char.toUpper
  match extractLetterGo none up with
  | some c => [c]
  | none =>
    match trimChars up with
    | [] => []
    | c :: _ => [c]

/-- Source `question_format` of a `PracticeQuestion`. -/
inductive QFormat where
  | correction : QFormat
  | multiple_choice : QFormat
  | writing_prompt : QFormat
deriving DecidableEq, Repr

/-- Interface `PracticeQuestion`. -/
structure PracticeQuestion where
  question_id : String
  issue_type : String
  specific_issue : String
  question_format : QFormat
  question_text : String
  correct_answer : String
  options : Option (List String)
  explanation : String
deriving DecidableEq, Repr

/-- Source `grading_method` of a `GradingResult`. -/
inductive GMethod where
  | programmatic : GMethod
  | similarity : GMethod
  | llm : GMethod
deriving DecidableEq, Repr

/-- Interface `GradingResult`.  On the llm path the source stores the
model's dynamic `is_correct`/`feedback` values unvalidated; we record
`correct` as the value's truthiness (how it is consumed downstream) and
`feedback` only when the model returned a string.  Claim C8 does not touch
that path. -/
structure GradingResult where
  question : Nat
  issue : String
  correct : Bool
  feedback : String
  correct_answer : String
  explanation : String
  grading_method : GMethod
deriving DecidableEq, Repr

/-- An entry of `needsLLM` (line 702): `{idx: idx + 1, question, answer}`. -/
structure PendingQuestion where
  idx : Nat
  question : PracticeQuestion
  answer : String
deriving DecidableEq, Repr

/-- The first, programmatic/similarity pass of `gradePracticeSession`
(lines 704-775), with `idx` the 0-based position of the head question.
Returns the locally graded results and the `needsLLM` list, each in
question order.  `answers` models the `userAnswers` object lookup with its
`|| ''` default folded in. -/
def gradeFirstPassGo (answers : String → String) : Nat → List PracticeQuestion →
    List GradingResult × List PendingQuestion
  | _, [] => ([], [])
  | idx, q :: qs =>
    let rest := gradeFirstPassGo answers (idx + 1) qs
    let userAnswer := answers q.question_id
    if trimChars userAnswer.data = [] then
      ({ question := idx + 1, issue := q.specific_issue, correct := false,
         feedback := "No answer provided", correct_answer := q.correct_answer,
         explanation := q.explanation, grading_method := .programmatic } :: rest.1, rest.2)
    else if q.question_format = .multiple_choice then
      let userLetter := extractLetter userAnswer.data
      let correctLetter := extractLetter q.correct_answer.data
      let isCorrect := userLetter = correctLetter
      ({ question := idx + 1, issue := q.specific_issue, correct := isCorrect,
         feedback := if isCorrect then "Correct! ✓"
           else "Incorrect. The correct answer is " ++ String.mk correctLetter ++ ".",
         correct_answer := q.correct_answer, explanation := q.explanation,
         grading_method := .programmatic } :: rest.1, rest.2)
    else
      let similarity := calculateSimilarity (toLowerChars userAnswer.data)
        (toLowerChars q.correct_answer.data)
      if 9 / 10 < similarity then
        ({ question := idx + 1, issue := q.specific_issue, correct := true,
           feedback := "Correct! ✓", correct_answer := q.correct_answer,
           explanation := q.explanation, grading_method := .similarity } :: rest.1, rest.2)
      else if 3 / 4 < similarity ∧ q.question_format = .correction then
        ({ question := idx + 1, issue := q.specific_issue, correct := true,
           feedback := "Correct! Minor wording differences are acceptable. ✓",
           correct_answer := q.correct_answer, explanation := q.explanation,
           grading_method := .similarity } :: rest.1, rest.2)
      else
        (rest.1, ⟨idx + 1, q, userAnswer⟩ :: rest.2)

/-- JavaScript array indexing used at line 813 (`llmGrades[i]`): arrays
index positionally, anything else yields `undefined`. -/
def jsIndex (v : JVal) (i : Nat) : JVal :=
  match v with
  | .arr xs => (xs.get? i).getD .undefinedV
  | _ => .undefinedV

/-- One llm-graded result (lines 812-823): the grade object defaults to
`{is_correct: false, feedback: 'Unable to grade'}` when missing/falsy. -/
def llmGradeRecord (item : PendingQuestion) (grade : JVal) : GradingResult :=
  let g := jsOr grade (.obj [("is_correct", .bool false), ("feedback", .str "Unable to grade")])
  { question := item.idx, issue := item.question.specific_issue,
    correct := (getField g "is_correct").truthy,
    feedback := match getField g "feedback" with | .str s => s | _ => "",
    correct_answer := item.question.correct_answer,
    explanation := item.question.explanation, grading_method := .llm }

/-- The second, batched llm pass of `gradePracticeSession` (lines 777-839):
issued only when `needsLLM` is nonempty; `none` = the call or parse threw
(fallback records, lines 824-838). -/
def llmPass (pend : List PendingQuestion) (resp : Option JVal) : List GradingResult :=
  match pend with
  | [] => []
  | _ :: _ =>
    match resp with
    | none => pend.map (fun item =>
        { question := item.idx, issue := item.question.specific_issue, correct := false,
          feedback := "Unable to grade automatically. Please review the correct answer.",
          correct_answer := item.question.correct_answer,
          explanation := item.question.explanation, grading_method := .llm })
    | some v => (pend.enumFrom 0).map (fun p => llmGradeRecord p.2 (jsIndex v p.1))

/-- Source `AnthropicAPI.gradePracticeSession` (lines 696-843): first pass, batched
llm pass for the deferred questions, then a stable sort by 1-based question
number. -/
def gradePracticeSession (questions : List PracticeQuestion) (answers : String → String)
    (resp : Option JVal) : List GradingResult :=
  let fp := gradeFirstPassGo answers 0 questions
  (fp.1 ++ llmPass fp.2 resp).mergeSort (fun a b => a.question ≤ b.question)

/-- One pass of `cleaned.replace(/```json\s*/g, '')` (line 854): scan left
to right; at a match consume the seven pattern characters, then (`skip`
state) the greedy whitespace run, then resume scanning.  The pattern cannot
begin with whitespace, so checking it first in the skip state agrees with
the regex engine's next-match search. -/
def sfjGo : Bool → List Char → List Char
  | _, [] => []
  | skip, c :: c2 :: c3 :: c4 :: c5 :: c6 :: c7 :: rest =>
    if c = btk ∧ c2 = btk ∧ c3 = btk ∧ c4 = 'j' ∧ c5 = 's' ∧ c6 = 'o' ∧ c7 = 'n' then
      sfjGo true rest
    else if skip ∧ isJsWs c then sfjGo true (c2 :: c3 :: c4 :: c5 :: c6 :: c7 :: rest)
    else c :: sfjGo false (c2 :: c3 :: c4 :: c5 :: c6 :: c7 :: rest)
  | skip, c :: cs =>
    if skip ∧ isJsWs c then sfjGo true cs
    else c :: sfjGo false cs

/-- One pass of `cleaned.replace(/```\s*/g, '')` (line 855), same scheme. -/
def sfGo : Bool → List Char → List Char
  | _, [] => []
  | skip, c :: c2 :: c3 :: rest =>
    if c = btk ∧ c2 = btk ∧ c3 = btk then sfGo true rest
    else if skip ∧ isJsWs c then sfGo true (c2 :: c3 :: rest)
    else c :: sfGo false (c2 :: c3 :: rest)
  | skip, c :: cs =>
    if skip ∧ isJsWs c then sfGo true cs
    else c :: sfGo false cs

/-- Source `indexOf c` (first occurrence), `-1` modelled as `none`. -/
def idxOfChar (c : Char) (l : List Char) : Option Nat := l.findIdx? (fun x => x = c)

/-- Source `lastIndexOf c` (last occurrence), `-1` modelled as `none`. -/
def lastIdxOfChar (c : Char) (l : List Char) : Option Nat :=
  (l.reverse.findIdx? (fun x => x = c)).map (fun k => l.length - 1 - k)

/-- Step 1 of `cleanJSONResponse` (lines 850-856): trim, remove all
` ```json ` fence markers, remove all remaining ` ``` ` markers, trim. -/
def cleanStage1 (response : List Char) : List Char :=
  trimChars (sfGo false (sfjGo false (trimChars response)))

/-- Step 2's start index (lines 859-869): the first `[` or `{`, whichever
comes first; `-1` (no bracket) modelled as `none`. -/
def jsonStartIdx (l : List Char) : Option Nat :=
  match idxOfChar '[' l, idxOfChar '\x7b' l with
  | some a, some b => some (min a b)
  | some a, none => some a
  | none, some b => some b
  | none, none => none

/-- Step 2 (lines 871-873): discard everything before the first bracket. -/
def cleanStage2 (l : List Char) : List Char :=
  match jsonStartIdx l with
  | some n => if 0 < n then l.drop n else l
  | none => l

/-- Step 3's end index (lines 876-884): the last closer matching the bracket
the trimmed remainder opens with. -/
def jsonEndIdx (l : List Char) : Option Nat :=
  if (trimChars l).head? = some '[' then lastIdxOfChar ']' l
  else if (trimChars l).head? = some '\x7b' then lastIdxOfChar '\x7d' l
  else none

/-- Step 3 (lines 886-888): keep up to the last matching closer, but only
when that cut is interior (`jsonEnd > 0 && jsonEnd < cleaned.length - 1`). -/
def cleanStage3 (l : List Char) : List Char :=
  match jsonEndIdx l with
  | some e => if 0 < e ∧ e < l.length - 1 then l.take (e + 1) else l
  | none => l

/-- Source `AnthropicAPI.cleanJSONResponse` (lines 849-902) on character lists: the
three steps above followed by the final trim (line 891).  The two
warn-logging checks at lines 894-899 have no effect on the result. -/
def cleanList (response : List Char) : List Char :=
  trimChars (cleanStage3 (cleanStage2 (cleanStage1 response)))

/-- Source `cleanJSONResponse` at the `String` boundary. -/
def cleanJSONResponse (response : String) : String := String.mk (cleanList response.data)

/-- A JSON value as fed to `JSON.stringify` (numbers restricted to
integers; the claims do not involve float formatting). -/
inductive JsonVal where
  | null : JsonVal
  | bool (b : Bool) : JsonVal
  | num (n : Int) : JsonVal
  | str (s : String) : JsonVal
  | arr (elems : List JsonVal) : JsonVal
  | obj (fields : List (String × JsonVal)) : JsonVal

/-- Hexadecimal digit (lowercase), for `\u00XX` escapes. -/
def hexDigit (n : Nat) : Char := if n < 10 then Char.ofNat (48 + n) else Char.ofNat (87 + n)

/-- Source `JSON.stringify`'s escaping of one string character. -/
def escapeChar (c : Char) : List Char :=
  if c = '"' then ['\\', '"']
  else if c = '\\' then ['\\', '\\']
  else if c = '\x08' then ['\\', 'b']
  else if c = '\x0c' then ['\\', 'f']
  else if c = '\n' then ['\\', 'n']
  else if c = '\r' then ['\\', 'r']
  else if c = '\t' then ['\\', 't']
  else if c.toNat < 32 then ['\\', 'u', '0', '0', hexDigit (c.toNat / 16), hexDigit (c.toNat % 16)]
  else [c]

/-- Source `JSON.stringify` of a string, with quotes. -/
def quoteString (s : String) : List Char :=
  '"' :: (s.data.bind escapeChar ++ ['"'])

mutual
/-- Source `JSON.stringify` (no spacing argument), as a character list. -/
def jsonChars : JsonVal → List Char
  | .null => "null".data
  | .bool true => "true".data
  | .bool false => "false".data
  | .num n => (toString n).data
  | .str s => quoteString s
  | .arr elems => List.cons '[' (jsonArrChars elems ++ [']'])
  | .obj fields => List.cons '\x7b' (jsonObjChars fields ++ ['\x7d'])
/-- Comma-separated stringified array elements. -/
def jsonArrChars : List JsonVal → List Char
  | [] => []
  | [v] => jsonChars v
  | v :: vs => jsonChars v ++ ',' :: jsonArrChars vs
/-- Comma-separated stringified object entries. -/
def jsonObjChars : List (String × JsonVal) → List Char
  | [] => []
  | [(k, v)] => quoteString k ++ ':' :: jsonChars v
  | (k, v) :: fs => quoteString k ++ ':' :: jsonChars v ++ ',' :: jsonObjChars fs
end

/-- Whether a JSON value serializes to a bracketed container
(array or object). -/
def jsonIsContainer : JsonVal → Bool
  | .arr _ => true
  | .obj _ => true
  | _ => false

/-- The closing bracket of a container value (scalars never consult it). -/
def jsonCloser : JsonVal → Char
  | .obj _ => '\x7d'
  | _ => ']'

/-- The markdown wrap of claim C5: leading prose, an opening ` ```json `
fence, the payload, a closing fence, trailing prose. -/
def fenceWrap (p1 S p2 : List Char) : List Char :=
  p1 ++ ([btk, btk, btk, 'j', 's', 'o', 'n', '\n'] ++ (S ++ (['\n', btk, btk, btk] ++ p2)))

lemma recordFromSlot_message_id (m : Message) (s : JVal) :
    (recordFromSlot m s).message_id = m.id := by
  unfold recordFromSlot
  split <;> rfl

lemma recordFromSlot_text (m : Message) (s : JVal) :
    (recordFromSlot m s).text = m.text := by
  unfold recordFromSlot
  split <;> rfl

lemma recordAt_message_id (resp : Option (List JVal)) (j : Nat) (m : Message) :
    (recordAt resp j m).message_id = m.id := by
  cases resp with
  | none => rfl
  | some slots => exact recordFromSlot_message_id m _

lemma recordAt_text (resp : Option (List JVal)) (j : Nat) (m : Message) :
    (recordAt resp j m).text = m.text := by
  cases resp with
  | none => rfl
  | some slots => exact recordFromSlot_text m _

lemma evalRows_get? (slots : List JVal) :
    ∀ (j k : Nat) (ms : List Message),
      (evalRows slots j ms).get? k =
        (ms.get? k).map (fun m => recordFromSlot m ((slots.get? (j + k)).getD .undefinedV)) := by
  intro j k ms
  induction ms generalizing j k with
  | nil => simp [evalRows]
  | cons m ms ih =>
    cases k with
    | zero => simp [evalRows]
    | succ k =>
      simp only [evalRows, List.get?_cons_succ]
      rw [ih (j + 1) k]
      ring_nf

lemma evalBatchStep_get? (batch : List Message) (resp : Option (List JVal)) (k : Nat) :
    (evalBatchStep batch resp).get? k = (batch.get? k).map (fun m => recordAt resp k m) := by
  cases resp with
  | none => simp [evalBatchStep, recordAt, List.get?_map]
  | some slots =>
    simp only [evalBatchStep, recordAt]
    rw [evalRows_get? slots 0 k batch]
    simp

lemma evalBatchStep_length (batch : List Message) (resp : Option (List JVal)) :
    (evalBatchStep batch resp).length = batch.length := by
  cases resp with
  | none => simp [evalBatchStep]
  | some slots =>
    simp only [evalBatchStep]
    induction batch generalizing slots with
    | nil => rfl
    | cons m ms ih =>
      show (evalRows slots 0 (m :: ms)).length = ms.length + 1
      have aux : ∀ (j : Nat) (l : List Message), (evalRows slots j l).length = l.length := by
        intro j l
        induction l generalizing j with
        | nil => rfl
        | cons x xs ihx => simp [evalRows, ihx]
      simp [evalRows, aux]

/-- A batch of at most 5 messages is indexed directly: position `k` within it
is overall position `k` with `k / 5 = 0` and `k % 5 = k`. -/
lemma evalBatchStep_small (oracle : Nat → Option (List JVal)) (b k : Nat)
    (batch : List Message) (hlen : batch.length ≤ 5) :
    (evalBatchStep batch (oracle b)).get? k =
      (batch.get? k).map (fun m => recordAt (oracle (b + k / 5)) (k % 5) m) := by
  rw [evalBatchStep_get?]
  rcases Nat.lt_or_ge k batch.length with hk | hk
  · have hk5 : k < 5 := lt_of_lt_of_le hk hlen
    rw [Nat.div_eq_of_lt hk5, Nat.mod_eq_of_lt hk5, Nat.add_zero]
  · rw [List.get?_eq_none.mpr hk]
    simp

/-- Master characterization: the record at overall position `k` of
`evaluateBatchGo` is built from the input message at position `k`, the
oracle's response for batch `k / 5`, and within-batch position `k % 5`. -/
lemma evaluateBatchGo_get? (oracle : Nat → Option (List JVal)) :
    ∀ (b0 : Nat) (msgs : List Message) (k : Nat),
      (evaluateBatchGo oracle b0 msgs).get? k =
        (msgs.get? k).map (fun m => recordAt (oracle (b0 + k / 5)) (k % 5) m) := by
  intro b0 msgs
  induction b0, msgs using evaluateBatchGo.induct oracle with
  | case1 b => intro k; simp [evaluateBatchGo]
  | case2 b m1 m2 m3 m4 m5 rest ih =>
    intro k
    show (evalBatchStep [m1, m2, m3, m4, m5] (oracle b) ++
          evaluateBatchGo oracle (b + 1) rest).get? k = _
    by_cases hk : k < 5
    · rw [List.get?_append]
      · rw [evalBatchStep_small oracle b k _ (by simp)]
        have : (m1 :: m2 :: m3 :: m4 :: m5 :: rest).get? k
            = ([m1, m2, m3, m4, m5] : List Message).get? k := by
          rw [show (m1 :: m2 :: m3 :: m4 :: m5 :: rest)
              = [m1, m2, m3, m4, m5] ++ rest from rfl]
          rw [List.get?_append (by simpa using hk)]
        rw [this]
      · rw [evalBatchStep_length]
        simpa using hk
    · push_neg at hk
      rw [List.get?_append_right (by rw [evalBatchStep_length]; simpa using hk)]
      rw [evalBatchStep_length]
      show (evaluateBatchGo oracle (b + 1) rest).get? (k - 5) = _
      rw [ih (k - 5)]
      have h2 : (m1 :: m2 :: m3 :: m4 :: m5 :: rest).get? k = rest.get? (k - 5) := by
        rw [show (m1 :: m2 :: m3 :: m4 :: m5 :: rest)
            = [m1, m2, m3, m4, m5] ++ rest from rfl]
        rw [List.get?_append_right (by simpa using hk)]
        simp
      rw [h2]
      have e1 : b + 1 + (k - 5) / 5 = b + k / 5 := by omega
      have e2 : (k - 5) % 5 = k % 5 := by omega
      rw [e1, e2]
  | case3 b ms h1 h2 =>
    intro k
    rcases ms with _ | ⟨m1, _ | ⟨m2, _ | ⟨m3, _ | ⟨m4, _ | ⟨m5, rest⟩⟩⟩⟩⟩
    · exact absurd rfl h1
    · rw [show evaluateBatchGo oracle b [m1] = evalBatchStep [m1] (oracle b) from rfl]
      exact evalBatchStep_small oracle b k _ (by simp)
    · rw [show evaluateBatchGo oracle b [m1, m2] = evalBatchStep [m1, m2] (oracle b) from rfl]
      exact evalBatchStep_small oracle b k _ (by simp)
    · rw [show evaluateBatchGo oracle b [m1, m2, m3]
          = evalBatchStep [m1, m2, m3] (oracle b) from rfl]
      exact evalBatchStep_small oracle b k _ (by simp)
    · rw [show evaluateBatchGo oracle b [m1, m2, m3, m4]
          = evalBatchStep [m1, m2, m3, m4] (oracle b) from rfl]
      exact evalBatchStep_small oracle b k _ (by simp)
    · exact absurd rfl (h2 m1 m2 m3 m4 m5 rest)

/-- Source `evaluateBatch` emits exactly one record per input message. -/
lemma evaluateBatchGo_length (oracle : Nat → Option (List JVal)) :
    ∀ (b0 : Nat) (msgs : List Message),
      (evaluateBatchGo oracle b0 msgs).length = msgs.length := by
  intro b0 msgs
  induction b0, msgs using evaluateBatchGo.induct oracle with
  | case1 b => rfl
  | case2 b m1 m2 m3 m4 m5 rest ih =>
    show (evalBatchStep [m1, m2, m3, m4, m5] (oracle b) ++
          evaluateBatchGo oracle (b + 1) rest).length = _
    rw [List.length_append, evalBatchStep_length, ih]
    simp
    omega
  | case3 b ms h1 h2 =>
    rcases ms with _ | ⟨m1, _ | ⟨m2, _ | ⟨m3, _ | ⟨m4, _ | ⟨m5, rest⟩⟩⟩⟩⟩
    · exact absurd rfl h1
    · exact evalBatchStep_length _ _
    · exact evalBatchStep_length _ _
    · exact evalBatchStep_length _ _
    · exact evalBatchStep_length _ _
    · exact absurd rfl (h2 m1 m2 m3 m4 m5 rest)

/-- The claim of the data model: a score field is the JSON number of an
integer in `[1, 5]`. -/
def scoreInRange (v : JVal) : Prop := ∃ n : Int, v = .num n ∧ 1 ≤ n ∧ n ≤ 5

/-- All three score fields of a record are integers in `[1, 5]`. -/
def scoresInRange (r : EvaluationResult) : Prop :=
  scoreInRange r.grammar_score ∧ scoreInRange r.punctuation_score ∧ scoreInRange r.tone_score

/-- A model-returned score field is well formed: if present (truthy) it is an
integer in `[1, 5]`. -/
def scoreFieldOk (v : JVal) : Prop :=
  v.truthy = true → ∃ n : Int, v = .num n ∧ 1 ≤ n ∧ n ≤ 5

lemma scoreInRange_jsOr_three (v : JVal) (h : scoreFieldOk v) :
    scoreInRange (jsOr v (.num 3)) := by
  unfold jsOr
  split
  · next ht => exact h ht
  · exact ⟨3, rfl, by norm_num, by norm_num⟩

lemma scoresInRange_batchErrorRecord (m : Message) : scoresInRange (batchErrorRecord m) :=
  ⟨⟨3, rfl, by norm_num, by norm_num⟩, ⟨3, rfl, by norm_num, by norm_num⟩,
    ⟨3, rfl, by norm_num, by norm_num⟩⟩

lemma scoresInRange_noEvalRecord (m : Message) : scoresInRange (noEvalRecord m) :=
  ⟨⟨3, rfl, by norm_num, by norm_num⟩, ⟨3, rfl, by norm_num, by norm_num⟩,
    ⟨3, rfl, by norm_num, by norm_num⟩⟩

/-- C1: every `EvaluationRecord` emitted by `evaluateBatch` carries the `id`
and `text` of the input `Message` at the same position, for every input list
and every model response (the oracle is universally quantified, so this holds
for shuffled, truncated, null or otherwise malformed per-item fields); the
two fields are never derived from model output. -/
theorem evaluateBatch_identity_preserved (msgs : List Message)
    (oracle : Nat → Option (List JVal)) (k : Nat) :
    ((evaluateBatch msgs oracle).get? k).map (fun r => (r.message_id, r.text)) =
      (msgs.get? k).map (fun m => (m.id, m.text)) := by
  rw [evaluateBatch, evaluateBatchGo_get?]
  cases msgs.get? k with
  | none => rfl
  | some m => simp [recordAt_message_id, recordAt_text]

/-- C2: `evaluateBatch` returns exactly one record per input message, and
when the oracle reports an exception for a batch (network, parse, or
non-array shape), every message of that batch yields the placeholder record
(scores all 3, one synthetic grammar issue, empty punctuation/tone issues),
so no message is dropped. -/
theorem evaluateBatch_no_message_dropped (msgs : List Message)
    (oracle : Nat → Option (List JVal)) :
    (evaluateBatch msgs oracle).length = msgs.length ∧
    ∀ b k, oracle b = none → 5 * b ≤ k → k < 5 * b + 5 →
      (evaluateBatch msgs oracle).get? k = (msgs.get? k).map batchErrorRecord := by
  constructor
  · exact evaluateBatchGo_length oracle 0 msgs
  · intro b k hb hlo hhi
    rw [evaluateBatch, evaluateBatchGo_get?]
    have hdb : k / 5 = b := by omega
    rw [Nat.zero_add, hdb, hb]
    rfl

/-- Witness for C2 at a concrete input: two messages, an oracle that always
throws; both placeholder records are produced and none dropped. -/
theorem evaluateBatch_no_message_dropped_witness :
    (evaluateBatch [⟨"a", "x"⟩, ⟨"b", "y"⟩] (fun _ => none)).length = 2 ∧
    (evaluateBatch [⟨"a", "x"⟩, ⟨"b", "y"⟩] (fun _ => none)).get? 1 =
      some (batchErrorRecord ⟨"b", "y"⟩) := by
  refine ⟨(evaluateBatch_no_message_dropped _ _).1, ?_⟩
  have h := (evaluateBatch_no_message_dropped [⟨"a", "x"⟩, ⟨"b", "y"⟩] (fun _ => none)).2
    0 1 rfl (by norm_num) (by norm_num)
  simpa using h

/-- C9 fails as stated: the source defaults a missing/falsy score field to 3
but propagates any truthy value unchanged, so a model response carrying
`grammar_score: 7` produces a record whose score is outside `[1, 5]`. -/
theorem evaluateBatch_scores_not_always_in_range :
    ¬ ∀ (msgs : List Message) (oracle : Nat → Option (List JVal)),
        ∀ r ∈ evaluateBatch msgs oracle, scoresInRange r := by
  intro h
  have hmem : (⟨"a", "t", .num 7, .num 3, .num 3, .arr [], .arr [], .arr []⟩ :
      EvaluationResult) ∈
      evaluateBatch [⟨"a", "t"⟩]
        (fun _ => some [JVal.obj [("grammar_score", JVal.num 7)]]) := by
    rw [show evaluateBatch [⟨"a", "t"⟩]
        (fun _ => some [JVal.obj [("grammar_score", JVal.num 7)]])
        = [⟨"a", "t", .num 7, .num 3, .num 3, .arr [], .arr [], .arr []⟩] from rfl]
    exact List.mem_singleton_self _
  obtain ⟨⟨n, hn, h1, h5⟩, -, -⟩ := h _ _ _ hmem
  have : (7 : Int) = n := by
    have hred : (JVal.num 7) = JVal.num n := hn
    exact (JVal.num.injEq 7 n).mp hred
  omega

/-- C9 amended: whenever the oracle's parsed arrays carry score fields that
are each either absent/falsy (then defaulted to 3) or an integer in `[1, 5]`,
every record `evaluateBatch` emits has all three scores in `[1, 5]`.  This
also covers the failure/placeholder paths, whose scores are the constant 3. -/
theorem evaluateBatch_scores_in_range_of_wellFormed (msgs : List Message)
    (oracle : Nat → Option (List JVal))
    (hor : ∀ b slots, oracle b = some slots → ∀ v ∈ slots,
      scoreFieldOk (getField v "grammar_score") ∧
      scoreFieldOk (getField v "punctuation_score") ∧
      scoreFieldOk (getField v "tone_score")) :
    ∀ r ∈ evaluateBatch msgs oracle, scoresInRange r := by
  intro r hr
  obtain ⟨k, hk⟩ := List.get?_of_mem hr
  rw [evaluateBatch, evaluateBatchGo_get?] at hk
  obtain ⟨m, -, hrec⟩ := Option.map_eq_some'.mp hk
  cases hresp : oracle (0 + k / 5) with
  | none =>
    rw [hresp] at hrec
    rw [← hrec]
    exact scoresInRange_batchErrorRecord m
  | some slots =>
    rw [hresp] at hrec
    simp only [recordAt] at hrec
    set slot := (slots.get? (k % 5)).getD .undefinedV with hslot
    by_cases ht : slot.truthy
    · have hvmem : slot ∈ slots := by
        cases hs : slots.get? (k % 5) with
        | none =>
          rw [hslot, hs] at ht
          simp [JVal.truthy] at ht
        | some v =>
          rw [hslot, hs]
          exact List.get?_mem hs
      obtain ⟨hg, hp, htn⟩ := hor _ _ hresp slot hvmem
      rw [← hrec]
      unfold recordFromSlot
      rw [if_pos ht]
      exact ⟨scoreInRange_jsOr_three _ hg, scoreInRange_jsOr_three _ hp,
        scoreInRange_jsOr_three _ htn⟩
    · rw [← hrec]
      unfold recordFromSlot
      rw [if_neg ht]
      exact scoresInRange_noEvalRecord m

lemma isTrueLit_iff (v : JVal) : isTrueLit v = true ↔ v = .bool true := by
  cases v with
  | bool b => cases b <;> simp [isTrueLit]
  | _ => simp [isTrueLit]

lemma keepGo_eq_filter (xs : List JVal) :
    ∀ (j : Nat) (ms : List Message),
      keepGo xs j ms =
        ((ms.enumFrom j).filter (fun p => isTrueLit ((xs.get? p.1).getD .undefinedV))).map
          Prod.snd := by
  intro j ms
  induction ms generalizing j with
  | nil => rfl
  | cons m ms ih =>
    simp only [keepGo, List.enumFrom_cons, List.filter_cons]
    by_cases hp : isTrueLit ((xs.get? j).getD .undefinedV)
    · rw [if_pos hp, if_pos (by simpa using hp)]
      simp [ih (j + 1)]
    · rw [if_neg hp, if_neg (by simpa using hp)]
      exact ih (j + 1)

/-- C3: fail-open confirmation.  Per batch of `filterRelevantMessagesLLM`:
a thrown call/parse (`none`), a non-array response, or an array of the wrong
length keeps every message of the batch; an array of exactly the batch's
length keeps exactly the messages whose entry is the strict boolean `true`.
The final conjunct shows the batching loop feeds every `batchSize`-slice
through this per-batch step and concatenates the results in order. -/
theorem filterRelevantMessagesLLM_fail_open (batch : List Message) :
    confirmStep batch none = batch ∧
    (∀ v : JVal, (∀ xs, v ≠ .arr xs) → confirmStep batch (some v) = batch) ∧
    (∀ xs : List JVal, xs.length ≠ batch.length → confirmStep batch (some (.arr xs)) = batch) ∧
    (∀ xs : List JVal, xs.length = batch.length →
      confirmStep batch (some (.arr xs)) =
        ((batch.enumFrom 0).filter (fun p => isTrueLit ((xs.get? p.1).getD .undefinedV))).map
          Prod.snd) ∧
    (∀ (oracle : Nat → Option JVal) (bs b : Nat) (msgs : List Message), 0 < bs → msgs ≠ [] →
      filterRelevantGo oracle bs b msgs =
        confirmStep (msgs.take bs) (oracle b) ++
          filterRelevantGo oracle bs (b + 1) (msgs.drop bs)) := by
  refine ⟨rfl, ?_, ?_, ?_, ?_⟩
  · intro v hv
    cases v with
    | arr xs => exact absurd rfl (hv xs)
    | _ => rfl
  · intro xs hlen
    simp only [confirmStep]
    rw [if_neg hlen]
  · intro xs hlen
    simp only [confirmStep]
    rw [if_pos hlen, keepGo_eq_filter]
  · intro oracle bs b msgs hbs hne
    cases msgs with
    | nil => exact absurd rfl hne
    | cons m rest =>
      rw [filterRelevantGo]
      rw [dif_neg (by omega)]

/-- Witness for C3: with batch size 2 the loop slices off the first batch,
and a one-entry response for a two-message batch (wrong length) keeps both
messages. -/
theorem filterRelevantMessagesLLM_fail_open_witness :
    (filterRelevantGo (fun _ => some (.arr [.bool true])) 2 0
        [⟨"a", "x"⟩, ⟨"b", "y"⟩, ⟨"c", "z"⟩] =
      confirmStep [⟨"a", "x"⟩, ⟨"b", "y"⟩] (some (.arr [.bool true])) ++
        filterRelevantGo (fun _ => some (.arr [.bool true])) 2 1 [⟨"c", "z"⟩]) ∧
    confirmStep [⟨"a", "x"⟩, ⟨"b", "y"⟩] (some (.arr [.bool true])) =
      [⟨"a", "x"⟩, ⟨"b", "y"⟩] := by
  constructor
  · have h := (filterRelevantMessagesLLM_fail_open []).2.2.2.2
      (fun _ => some (.arr [.bool true])) 2 0 [⟨"a", "x"⟩, ⟨"b", "y"⟩, ⟨"c", "z"⟩]
      (by norm_num) (by simp)
    simpa using h
  · exact (filterRelevantMessagesLLM_fail_open [⟨"a", "x"⟩, ⟨"b", "y"⟩]).2.2.1
      [.bool true] (by simp)

/-- C10: once the response parses to an array of exactly the batch's length,
only strict boolean `true` keeps a message: the kept list is the filter of
the batch by `entry === true`, and `isTrueLit` holds for no value other than
the boolean literal `true` (so the string `"true"`, the number `1` and
`null` all drop their message instead of triggering the keep-all fallback). -/
theorem confirmStep_strict_true (batch : List Message) (xs : List JVal)
    (hlen : xs.length = batch.length) :
    confirmStep batch (some (.arr xs)) =
      ((batch.enumFrom 0).filter (fun p => isTrueLit ((xs.get? p.1).getD .undefinedV))).map
        Prod.snd ∧
    ∀ v : JVal, isTrueLit v = true ↔ v = .bool true := by
  constructor
  · simp only [confirmStep]
    rw [if_pos hlen, keepGo_eq_filter]
  · exact isTrueLit_iff

/-- Witness for C10: entries `true`, `"true"`, `1`, `null` for a four-message
batch keep exactly the first message. -/
theorem confirmStep_strict_true_witness :
    confirmStep [⟨"a", "w"⟩, ⟨"b", "x"⟩, ⟨"c", "y"⟩, ⟨"d", "z"⟩]
        (some (.arr [.bool true, .str "true", .num 1, .null])) = [⟨"a", "w"⟩] := by
  have h := (confirmStep_strict_true [⟨"a", "w"⟩, ⟨"b", "x"⟩, ⟨"c", "y"⟩, ⟨"d", "z"⟩]
    [.bool true, .str "true", .num 1, .null] (by simp)).1
  rw [h]
  rfl

lemma startOf_ge_arrival (last clock : Nat) (t : QTask) : t.arrival ≤ startOf last clock t := by
  simp only [startOf]
  split <;> omega

lemma startOf_ge_clock (last clock : Nat) (t : QTask) : clock ≤ startOf last clock t := by
  simp only [startOf]
  split <;> omega

lemma startOf_ge_last_add (last clock : Nat) (t : QTask) (h : last ≤ clock) :
    last + MIN_REQUEST_INTERVAL ≤ startOf last clock t := by
  simp only [startOf]
  split <;> omega

lemma startOf_eq_arrival (last clock : Nat) (t : QTask)
    (h1 : last + MIN_REQUEST_INTERVAL ≤ t.arrival) (h2 : clock ≤ t.arrival) :
    startOf last clock t = t.arrival := by
  simp only [startOf]
  split <;> omega

lemma startOf_congr (last clock : Nat) (t t' : QTask) (h : t.arrival = t'.arrival) :
    startOf last clock t = startOf last clock t' := by
  simp only [startOf, h]

lemma schedRun_length (tasks : List QTask) :
    ∀ last clock, (schedRun last clock tasks).length = tasks.length := by
  induction tasks with
  | nil => intro last clock; rfl
  | cons t rest ih =>
    intro last clock
    simp only [schedRun, List.length_cons]
    rw [ih]

lemma schedRun_get? (tasks : List QTask) :
    ∀ last clock k s f, (schedRun last clock tasks).get? k = some (s, f) →
      ∃ t, tasks.get? k = some t ∧ f = s + t.duration ∧ t.arrival ≤ s := by
  induction tasks with
  | nil => intro last clock k s f h; simp [schedRun] at h
  | cons t rest ih =>
    intro last clock k s f h
    cases k with
    | zero =>
      simp only [schedRun, List.get?_cons_zero, Option.some_inj, Prod.mk.injEq] at h
      exact ⟨t, rfl, by omega, h.1 ▸ startOf_ge_arrival last clock t⟩
    | succ k =>
      simp only [schedRun, List.get?_cons_succ] at h
      exact ih _ _ k s f h

lemma schedRun_head_start (tasks : List QTask) :
    ∀ last clock s f, (schedRun last clock tasks).get? 0 = some (s, f) → last ≤ clock →
      last + MIN_REQUEST_INTERVAL ≤ s ∧ clock ≤ s := by
  intro last clock s f h hlc
  cases tasks with
  | nil => simp [schedRun] at h
  | cons t rest =>
    simp only [schedRun, List.get?_cons_zero, Option.some_inj, Prod.mk.injEq] at h
    exact ⟨h.1 ▸ startOf_ge_last_add last clock t hlc, h.1 ▸ startOf_ge_clock last clock t⟩

lemma schedRun_spacing (tasks : List QTask) :
    ∀ last clock k s f s' f', last ≤ clock →
      (schedRun last clock tasks).get? k = some (s, f) →
      (schedRun last clock tasks).get? (k + 1) = some (s', f') →
      f ≤ s' ∧ s + MIN_REQUEST_INTERVAL ≤ s' := by
  induction tasks with
  | nil => intro last clock k s f s' f' _ h; simp [schedRun] at h
  | cons t rest ih =>
    intro last clock k s f s' f' hlc h h'
    cases k with
    | zero =>
      simp only [schedRun, List.get?_cons_zero, Option.some_inj, Prod.mk.injEq] at h
      simp only [schedRun, List.get?_cons_succ] at h'
      obtain ⟨hs, hf⟩ := h
      have := schedRun_head_start rest _ _ s' f' h' le_rfl
      constructor
      · omega
      · have hd : 0 ≤ t.duration := Nat.zero_le _
        omega
    | succ k =>
      simp only [schedRun, List.get?_cons_succ] at h h'
      exact ih _ _ k s f s' f' le_rfl h h'

lemma schedRun_fails_irrelevant (tasks : List QTask) :
    ∀ (tasks' : List QTask) (last clock : Nat),
      tasks.map (fun t => (t.arrival, t.duration)) =
        tasks'.map (fun t => (t.arrival, t.duration)) →
      schedRun last clock tasks = schedRun last clock tasks' := by
  induction tasks with
  | nil =>
    intro tasks' last clock h
    cases tasks' with
    | nil => rfl
    | cons t' rest' => simp at h
  | cons t rest ih =>
    intro tasks' last clock h
    cases tasks' with
    | nil => simp at h
    | cons t' rest' =>
      simp only [List.map_cons, List.cons.injEq, Prod.mk.injEq] at h
      obtain ⟨⟨ha, hd⟩, hrest⟩ := h
      simp only [schedRun]
      rw [startOf_congr last clock t t' ha, hd, ih rest' _ _ hrest]

/-- C4 fails as stated: a task enqueued while the queue is empty does NOT
always run immediately.  Here the first task runs in [2000, 2100] and the
queue drains; the second task is enqueued at 2300 (after 2100, so into an
empty, idle queue) yet starts at 3100 — the scheduler still waits out
`MIN_REQUEST_INTERVAL` measured from the previous task's completion. -/
theorem processQueue_not_immediate_when_idle :
    (schedRun 0 0 [⟨2000, 100, false⟩, ⟨2300, 50, false⟩]).get? 0 = some (2000, 2100) ∧
    (schedRun 0 0 [⟨2000, 100, false⟩, ⟨2300, 50, false⟩]).get? 1 = some (3100, 3150) ∧
    2100 < 2300 ∧ (3100 : Nat) ≠ 2300 := by
  refine ⟨?_, ?_, by norm_num, by norm_num⟩ <;> rfl

/-- C4 amended: the scheduler runs enqueued tasks one at a time in FIFO
order (the k-th interval belongs to the k-th task and intervals do not
overlap), the gap between consecutive task start times is at least
`MIN_REQUEST_INTERVAL`, a task arriving into an idle queue at least
`MIN_REQUEST_INTERVAL` after the previous task's completion starts at its
arrival instant (otherwise it is delayed to completion + interval), and a
rejecting task leaves the schedule of the remaining queue unchanged (its
exception is routed to its own caller by the `queueRequest` wrapper). -/
theorem processQueue_schedule (last clock : Nat) (tasks : List QTask) (hlc : last ≤ clock) :
    ((schedRun last clock tasks).length = tasks.length) ∧
    (∀ k s f, (schedRun last clock tasks).get? k = some (s, f) →
      ∃ t, tasks.get? k = some t ∧ f = s + t.duration ∧ t.arrival ≤ s) ∧
    (∀ k s f s' f', (schedRun last clock tasks).get? k = some (s, f) →
      (schedRun last clock tasks).get? (k + 1) = some (s', f') →
      f ≤ s' ∧ s + MIN_REQUEST_INTERVAL ≤ s') ∧
    (∀ t rest, tasks = t :: rest →
      last + MIN_REQUEST_INTERVAL ≤ t.arrival → clock ≤ t.arrival →
      schedRun last clock tasks =
        (t.arrival, t.arrival + t.duration) ::
          schedRun (t.arrival + t.duration) (t.arrival + t.duration) rest) ∧
    (∀ tasks' : List QTask,
      tasks.map (fun t => (t.arrival, t.duration)) =
        tasks'.map (fun t => (t.arrival, t.duration)) →
      schedRun last clock tasks = schedRun last clock tasks') := by
  refine ⟨schedRun_length tasks last clock, schedRun_get? tasks last clock, ?_, ?_, ?_⟩
  · intro k s f s' f' h h'
    exact schedRun_spacing tasks last clock k s f s' f' hlc h h'
  · intro t rest hts h1 h2
    subst hts
    simp only [schedRun]
    rw [startOf_eq_arrival last clock t h1 h2]
  · intro tasks' h
    exact schedRun_fails_irrelevant tasks tasks' last clock h

/-- Witness for the amended C4 at concrete inputs: two tasks arriving at
5000 run at [5000, 5050] and [6050, 6060] — non-overlapping, spaced by at
least the interval — the first (arriving ≥ interval past an idle clock)
starts exactly at its arrival, and flipping a task's failure flag leaves the
schedule unchanged. -/
theorem processQueue_schedule_witness :
    ((5050 : Nat) ≤ 6050 ∧ (5000 : Nat) + MIN_REQUEST_INTERVAL ≤ 6050) ∧
    schedRun 0 0 [⟨5000, 50, false⟩, ⟨5000, 10, true⟩] =
      (5000, 5050) :: schedRun 5050 5050 [⟨5000, 10, true⟩] ∧
    schedRun 0 0 [⟨5000, 50, false⟩, ⟨5000, 10, true⟩] =
      schedRun 0 0 [⟨5000, 50, true⟩, ⟨5000, 10, false⟩] := by
  have h := processQueue_schedule 0 0 [⟨5000, 50, false⟩, ⟨5000, 10, true⟩] (le_refl 0)
  refine ⟨h.2.2.1 0 5000 5050 6050 6060 (by rfl) (by rfl), ?_, ?_⟩
  · have h4 := h.2.2.2.1 ⟨5000, 50, false⟩ [⟨5000, 10, true⟩] rfl
      (by norm_num [MIN_REQUEST_INTERVAL]) (by norm_num)
    simpa using h4
  · exact h.2.2.2.2 [⟨5000, 50, true⟩, ⟨5000, 10, false⟩] (by rfl)

/-- C7 fails as stated: `generateComparisonAnalysis` divides by the baseline
average with no zero guard.  A zero baseline with an improved followup
silently yields `Infinity` (and a zero baseline with zero change yields
`NaN`); neither is a finite number, a hard error, or a defined sentinel. -/
theorem comparison_zero_baseline_unguarded :
    (makeComparison ⟨0, 3, 3⟩ ⟨4, 3, 3⟩).grammar.changePercent = JsF.inf ∧
    (makeComparison ⟨0, 3, 3⟩ ⟨0, 3, 3⟩).grammar.changePercent = JsF.nan ∧
    (∀ q : Rat, JsF.inf ≠ JsF.fin q) ∧ (∀ q : Rat, JsF.nan ≠ JsF.fin q) := by
  refine ⟨?_, ?_, ?_, ?_⟩
  · norm_num [makeComparison, dimCompare, jsDiv, jsMulPos]
  · norm_num [makeComparison, dimCompare, jsDiv, jsMulPos]
  · intro q h
    cases h
  · intro q h
    cases h

/-- C7 amended: for each dimension the engine computes
`change = followup.avg - baseline.avg` and
`changePercent = change / baseline.avg * 100`; these are finite exactly when
the baseline average is nonzero — the zero-baseline case is NOT guarded and
produces `Infinity`/`NaN` instead (see the counterexample). -/
theorem comparison_changePercent_formula (b f : SummaryAvgs)
    (hg : b.avg_grammar_score ≠ 0) (hp : b.avg_punctuation_score ≠ 0)
    (ht : b.avg_tone_score ≠ 0) :
    (makeComparison b f).grammar.change = f.avg_grammar_score - b.avg_grammar_score ∧
    (makeComparison b f).grammar.changePercent =
      .fin ((f.avg_grammar_score - b.avg_grammar_score) / b.avg_grammar_score * 100) ∧
    (makeComparison b f).punctuation.change =
      f.avg_punctuation_score - b.avg_punctuation_score ∧
    (makeComparison b f).punctuation.changePercent =
      .fin ((f.avg_punctuation_score - b.avg_punctuation_score) /
        b.avg_punctuation_score * 100) ∧
    (makeComparison b f).tone.change = f.avg_tone_score - b.avg_tone_score ∧
    (makeComparison b f).tone.changePercent =
      .fin ((f.avg_tone_score - b.avg_tone_score) / b.avg_tone_score * 100) := by
  refine ⟨rfl, ?_, rfl, ?_, rfl, ?_⟩ <;>
    simp [makeComparison, dimCompare, jsDiv, jsMulPos, hg, hp, ht]

/-- Witness for the amended C7 at concrete averages: baseline (2, 2, 4),
followup (3, 1, 4). -/
theorem comparison_changePercent_formula_witness :
    (makeComparison ⟨2, 2, 4⟩ ⟨3, 1, 4⟩).grammar.change = 1 ∧
    (makeComparison ⟨2, 2, 4⟩ ⟨3, 1, 4⟩).grammar.changePercent = .fin 50 ∧
    (makeComparison ⟨2, 2, 4⟩ ⟨3, 1, 4⟩).tone.changePercent = .fin 0 := by
  have h := comparison_changePercent_formula ⟨2, 2, 4⟩ ⟨3, 1, 4⟩
    (by norm_num) (by norm_num) (by norm_num)
  refine ⟨?_, ?_, ?_⟩
  · rw [h.1]; norm_num
  · rw [h.2.1]; norm_num
  · rw [h.2.2.2.2.2]; norm_num

/-- Witness for the amended C9: a well-formed response (scores 5, 4, 1)
yields a record whose three scores are integers in `[1, 5]`. -/
theorem evaluateBatch_scores_in_range_of_wellFormed_witness :
    scoresInRange
      (⟨"a", "t", .num 5, .num 4, .num 1, .arr [], .arr [], .arr []⟩ : EvaluationResult) := by
  apply evaluateBatch_scores_in_range_of_wellFormed [⟨"a", "t"⟩]
    (fun _ => some [JVal.obj [("grammar_score", JVal.num 5),
      ("punctuation_score", JVal.num 4), ("tone_score", JVal.num 1)]])
  · intro b slots hs v hv
    have hslots := Option.some.inj hs
    subst hslots
    have hveq := List.mem_singleton.mp hv
    subst hveq
    refine ⟨?_, ?_, ?_⟩
    · intro _
      exact ⟨5, rfl, by norm_num, by norm_num⟩
    · intro _
      exact ⟨4, rfl, by norm_num, by norm_num⟩
    · intro _
      exact ⟨1, rfl, by norm_num, by norm_num⟩
  · rw [show evaluateBatch [⟨"a", "t"⟩]
        (fun _ => some [JVal.obj [("grammar_score", JVal.num 5),
          ("punctuation_score", JVal.num 4), ("tone_score", JVal.num 1)]])
        = [⟨"a", "t", .num 5, .num 4, .num 1, .arr [], .arr [], .arr []⟩] from rfl]
    exact List.mem_singleton_self _

/-- C6: the heuristic filter's decision coincides, on every text, with the
claim's four-step procedure; the filter itself keeps exactly the messages
that decision accepts; and a message containing the writing keyword "essay"
but under 10 words is still rejected (the word-count check precedes the
keyword check). -/
theorem filterMessagesHeuristic_decision :
    (∀ text : List Char, keepMessage text = heuristicClaimC6 text) ∧
    (∀ messages : List Message,
      filterMessagesHeuristic messages =
        messages.filter (fun m => heuristicClaimC6 m.text.data)) ∧
    keepMessage "please fix my essay now".data = false := by
  have hdec : ∀ text : List Char, keepMessage text = heuristicClaimC6 text := by
    intro text
    rfl
  refine ⟨hdec, ?_, by decide⟩
  intro messages
  unfold filterMessagesHeuristic
  simp only [hdec]

lemma gradeFirstPass_pend_lb (answers : String → String) :
    ∀ (qs : List PracticeQuestion) (start : Nat) (p : PendingQuestion),
      p ∈ (gradeFirstPassGo answers start qs).2 → start + 1 ≤ p.idx := by
  intro qs
  induction qs with
  | nil =>
    intro start p hp
    simp [gradeFirstPassGo] at hp
  | cons q qs ih =>
    intro start p hp
    simp only [gradeFirstPassGo] at hp
    split_ifs at hp <;> simp only [] at hp
    all_goals try exact le_trans (by omega) (ih (start + 1) p hp)
    all_goals rcases List.mem_cons.mp hp with hpe | hpm
    · subst hpe
      simp
    · exact le_trans (by omega) (ih (start + 1) p hpm)

lemma gradeFirstPass_sim (answers : String → String) :
    ∀ (qs : List PracticeQuestion) (start i : Nat) (q : PracticeQuestion),
      qs.get? i = some q →
      trimChars (answers q.question_id).data ≠ [] →
      ((9 / 10 < calculateSimilarity (toLowerChars (answers q.question_id).data)
          (toLowerChars q.correct_answer.data) ∧
        (q.question_format = .correction ∨ q.question_format = .writing_prompt)) ∨
       (3 / 4 < calculateSimilarity (toLowerChars (answers q.question_id).data)
          (toLowerChars q.correct_answer.data) ∧
        calculateSimilarity (toLowerChars (answers q.question_id).data)
          (toLowerChars q.correct_answer.data) ≤ 9 / 10 ∧
        q.question_format = .correction)) →
      (∃ r ∈ (gradeFirstPassGo answers start qs).1,
        r.question = start + i + 1 ∧ r.correct = true ∧
        r.grading_method = .similarity ∧ r.issue = q.specific_issue ∧
        r.correct_answer = q.correct_answer) ∧
      (∀ p ∈ (gradeFirstPassGo answers start qs).2, p.idx ≠ start + i + 1) := by
  intro qs
  induction qs with
  | nil =>
    intro start i q hq
    simp at hq
  | cons q0 qs ih =>
    intro start i q hq hne hsim
    cases i with
    | zero =>
      have hq0 : q0 = q := by simpa using hq
      subst hq0
      have hmc : ¬ q0.question_format = QFormat.multiple_choice := by
        rcases hsim with ⟨-, hf | hf⟩ | ⟨-, -, hf⟩ <;> simp [hf]
      simp only [gradeFirstPassGo]
      rw [if_neg hne, if_neg hmc]
      rcases hsim with ⟨h9, -⟩ | ⟨h75, h9le, hcorr⟩
      · rw [if_pos h9]
        constructor
        · refine ⟨_, List.mem_cons_self _ _, ?_, rfl, rfl, rfl, rfl⟩
          simp
        · intro p hp
          have := gradeFirstPass_pend_lb answers qs (start + 1) p hp
          omega
      · rw [if_neg (not_lt.mpr h9le), if_pos ⟨h75, hcorr⟩]
        constructor
        · refine ⟨_, List.mem_cons_self _ _, ?_, rfl, rfl, rfl, rfl⟩
          simp
        · intro p hp
          have := gradeFirstPass_pend_lb answers qs (start + 1) p hp
          omega
    | succ i =>
      have hq' : qs.get? i = some q := by simpa using hq
      have IH := ih (start + 1) i q hq' hne hsim
      have harith : start + 1 + i + 1 = start + (i + 1) + 1 := by omega
      simp only [gradeFirstPassGo]
      split_ifs with h1 h2 h3 h4
      all_goals constructor
      all_goals try
        (obtain ⟨r, hr, hr1, hr2, hr3, hr4, hr5⟩ := IH.1
         exact ⟨r, List.mem_cons_of_mem _ hr, harith ▸ hr1, hr2, hr3, hr4, hr5⟩)
      all_goals try
        (intro p hp
         have := IH.2 p hp
         omega)
      · obtain ⟨r, hr, hr1, hr2, hr3, hr4, hr5⟩ := IH.1
        exact ⟨r, hr, harith ▸ hr1, hr2, hr3, hr4, hr5⟩
      · intro p hp
        rcases List.mem_cons.mp hp with hpe | hpm
        · subst hpe
          simp only []
          omega
        · have := IH.2 p hpm
          omega

/-- C8: a `correction` or `writing_prompt` question whose (nonempty) answer
has Jaccard similarity above 0.90 to the correct answer — or, for
`correction` only, similarity in (0.75, 0.90] — is graded in the first,
local pass: its result is correct with grading method `similarity`, and the
question is absent from `needsLLM`, so the single batched model call (issued
only for `needsLLM` entries) never includes it and no request is enqueued on
its behalf.  The result also appears in the final sorted output of
`gradePracticeSession` for every model response. -/
theorem sessionGrader_similarity_no_model_call
    (questions : List PracticeQuestion) (answers : String → String) (resp : Option JVal)
    (i : Nat) (q : PracticeQuestion) (hq : questions.get? i = some q)
    (hne : trimChars (answers q.question_id).data ≠ [])
    (hsim :
      (9 / 10 < calculateSimilarity (toLowerChars (answers q.question_id).data)
          (toLowerChars q.correct_answer.data) ∧
        (q.question_format = .correction ∨ q.question_format = .writing_prompt)) ∨
      (3 / 4 < calculateSimilarity (toLowerChars (answers q.question_id).data)
          (toLowerChars q.correct_answer.data) ∧
        calculateSimilarity (toLowerChars (answers q.question_id).data)
          (toLowerChars q.correct_answer.data) ≤ 9 / 10 ∧
        q.question_format = .correction)) :
    (∃ r ∈ (gradeFirstPassGo answers 0 questions).1,
      r.question = i + 1 ∧ r.correct = true ∧ r.grading_method = .similarity) ∧
    (∀ p ∈ (gradeFirstPassGo answers 0 questions).2, p.idx ≠ i + 1) ∧
    (∃ r ∈ gradePracticeSession questions answers resp,
      r.question = i + 1 ∧ r.correct = true ∧ r.grading_method = .similarity) := by
  have H := gradeFirstPass_sim answers questions 0 i q hq hne hsim
  simp only [Nat.zero_add] at H
  refine ⟨?_, H.2, ?_⟩
  · obtain ⟨r, hr, h1, h2, h3, -, -⟩ := H.1
    exact ⟨r, hr, h1, h2, h3⟩
  · obtain ⟨r, hr, h1, h2, h3, -, -⟩ := H.1
    refine ⟨r, ?_, h1, h2, h3⟩
    unfold gradePracticeSession
    have hperm := List.mergeSort_perm
      ((gradeFirstPassGo answers 0 questions).1 ++
        llmPass (gradeFirstPassGo answers 0 questions).2 resp)
      (fun a b => a.question ≤ b.question)
    exact hperm.mem_iff.mpr (List.mem_append_left _ hr)

/-- Evaluate `calculateSimilarity` from concrete intersection and union
sizes (rational arithmetic does not reduce inside `decide`, the set sizes
do). -/
lemma calculateSimilarity_eval (s1 s2 : List Char) (ni nu : Nat) (hu : nu ≠ 0)
    (hinter : ((simWords s1).dedup.filter
      (fun w => (simWords s2).dedup.contains w)).length = ni)
    (hunion : (((simWords s1).dedup ++ (simWords s2).dedup).dedup).length = nu) :
    calculateSimilarity s1 s2 = (ni : Rat) / (nu : Rat) := by
  simp only [calculateSimilarity]
  rw [hinter, hunion, if_neg hu]

/-- Witness for C8: one correction question answered verbatim
(similarity 1 > 0.90) is graded correct via the similarity method in the
final output, with no deferred (llm) grading. -/
theorem sessionGrader_similarity_no_model_call_witness :
    ∃ r ∈ gradePracticeSession
      [⟨"q1", "grammar", "sv", .correction, "fix this", "the data show results", none, "x"⟩]
      (fun _ => "the data show results") none,
      r.question = 1 ∧ r.correct = true ∧ r.grading_method = GMethod.similarity := by
  have hsim : (9 : Rat) / 10 <
      calculateSimilarity (toLowerChars ("the data show results" : String).data)
        (toLowerChars ("the data show results" : String).data) := by
    rw [calculateSimilarity_eval _ _ 4 4 (by norm_num) (by decide) (by decide)]
    norm_num
  have h := sessionGrader_similarity_no_model_call
    [⟨"q1", "grammar", "sv", .correction, "fix this", "the data show results", none, "x"⟩]
    (fun _ => "the data show results") none 0
    ⟨"q1", "grammar", "sv", .correction, "fix this", "the data show results", none, "x"⟩
    rfl (by decide) (Or.inl ⟨hsim, Or.inl rfl⟩)
  simpa using h.2.2

lemma btk_not_ws : isJsWs btk = false := by decide

lemma sfjGo_false_cons (c : Char) (cs : List Char) (hc : c ≠ btk) :
    sfjGo false (c :: cs) = c :: sfjGo false cs := by
  rcases cs with _ | ⟨c2, _ | ⟨c3, _ | ⟨c4, _ | ⟨c5, _ | ⟨c6, _ | ⟨c7, rest⟩⟩⟩⟩⟩⟩ <;>
    simp [sfjGo, hc]

lemma sfjGo_exit_skip (c : Char) (cs : List Char) (hc : c ≠ btk)
    (hw : isJsWs c = false) :
    sfjGo true (c :: cs) = c :: sfjGo false cs := by
  rcases cs with _ | ⟨c2, _ | ⟨c3, _ | ⟨c4, _ | ⟨c5, _ | ⟨c6, _ | ⟨c7, rest⟩⟩⟩⟩⟩⟩ <;>
    simp [sfjGo, hc, hw]

lemma sfjGo_skip_ws (c : Char) (cs : List Char) (hw : isJsWs c = true) :
    sfjGo true (c :: cs) = sfjGo true cs := by
  have hc : c ≠ btk := by
    intro h
    rw [h] at hw
    exact absurd hw (by decide)
  rcases cs with _ | ⟨c2, _ | ⟨c3, _ | ⟨c4, _ | ⟨c5, _ | ⟨c6, _ | ⟨c7, rest⟩⟩⟩⟩⟩⟩ <;>
    simp [sfjGo, hc, hw]

lemma sfjGo_false_append (l1 l2 : List Char) (h : btk ∉ l1) :
    sfjGo false (l1 ++ l2) = l1 ++ sfjGo false l2 := by
  induction l1 with
  | nil => rfl
  | cons c l1 ih =>
    have hc : c ≠ btk := fun he => h (he ▸ List.mem_cons_self c l1)
    rw [List.cons_append, sfjGo_false_cons c _ hc, ih (fun hm => h (List.mem_cons_of_mem c hm))]
    rfl

lemma sfGo_false_cons (c : Char) (cs : List Char) (hc : c ≠ btk) :
    sfGo false (c :: cs) = c :: sfGo false cs := by
  rcases cs with _ | ⟨c2, _ | ⟨c3, rest⟩⟩ <;> simp [sfGo, hc]

lemma sfGo_false_append (l1 l2 : List Char) (h : btk ∉ l1) :
    sfGo false (l1 ++ l2) = l1 ++ sfGo false l2 := by
  induction l1 with
  | nil => rfl
  | cons c l1 ih =>
    have hc : c ≠ btk := fun he => h (he ▸ List.mem_cons_self c l1)
    rw [List.cons_append, sfGo_false_cons c _ hc, ih (fun hm => h (List.mem_cons_of_mem c hm))]
    rfl

lemma sfjGo_sublist : ∀ (b : Bool) (l : List Char), List.Sublist (sfjGo b l) l := by
  intro b l
  induction b, l using sfjGo.induct with
  | case1 b => exact List.Sublist.refl []
  | case2 skip c c2 c3 c4 c5 c6 c7 rest h ih =>
    rw [sfjGo, if_pos h]
    exact ih.trans (List.sublist_append_right [c, c2, c3, c4, c5, c6, c7] rest)
  | case3 skip c c2 c3 c4 c5 c6 c7 rest h1 h2 ih =>
    rw [sfjGo, if_neg h1, if_pos h2]
    exact ih.trans (List.sublist_cons_self _ _)
  | case4 skip c c2 c3 c4 c5 c6 c7 rest h1 h2 ih =>
    rw [sfjGo, if_neg h1, if_neg h2]
    exact ih.cons₂ c
  | case5 skip c cs hshape h2 ih =>
    rw [sfjGo, if_pos h2]
    · exact ih.trans (List.sublist_cons_self _ _)
    · exact hshape
  | case6 skip c cs hshape h2 ih =>
    rw [sfjGo, if_neg h2]
    · exact ih.cons₂ c
    · exact hshape

lemma sfGo_sublist : ∀ (b : Bool) (l : List Char), List.Sublist (sfGo b l) l := by
  intro b l
  induction b, l using sfGo.induct with
  | case1 b => exact List.Sublist.refl []
  | case2 skip c c2 c3 rest h ih =>
    rw [sfGo, if_pos h]
    exact ih.trans (List.sublist_append_right [c, c2, c3] rest)
  | case3 skip c c2 c3 rest h1 h2 ih =>
    rw [sfGo, if_neg h1, if_pos h2]
    exact ih.trans (List.sublist_cons_self _ _)
  | case4 skip c c2 c3 rest h1 h2 ih =>
    rw [sfGo, if_neg h1, if_neg h2]
    exact ih.cons₂ c
  | case5 skip c cs hshape h2 ih =>
    rw [sfGo, if_pos h2]
    · exact ih.trans (List.sublist_cons_self _ _)
    · exact hshape
  | case6 skip c cs hshape h2 ih =>
    rw [sfGo, if_neg h2]
    · exact ih.cons₂ c
    · exact hshape

lemma dropWhile_ws_append (a b : List Char) (c : Char) (hb : b.head? = some c)
    (hc : isJsWs c = false) :
    (a ++ b).dropWhile (fun x => isJsWs x) = a.dropWhile (fun x => isJsWs x) ++ b := by
  have hbself : b.dropWhile (fun x => isJsWs x) = b := by
    cases b with
    | nil => rfl
    | cons c0 b' =>
      have : c0 = c := by simpa using hb
      subst this
      rw [List.dropWhile_cons, if_neg (by simp [hc])]
  rw [List.dropWhile_append]
  split
  · next he =>
    rw [List.isEmpty_iff] at he
    rw [he, List.nil_append, hbself]
  · rfl

lemma trimLeftChars_append (a b : List Char) (c : Char) (hb : b.head? = some c)
    (hc : isJsWs c = false) :
    trimLeftChars (a ++ b) = trimLeftChars a ++ b :=
  dropWhile_ws_append a b c hb hc

lemma trimRightChars_append (a b : List Char) (c : Char) (ha : a.getLast? = some c)
    (hc : isJsWs c = false) :
    trimRightChars (a ++ b) = a ++ trimRightChars b := by
  unfold trimRightChars
  rw [List.reverse_append]
  rw [dropWhile_ws_append b.reverse a.reverse c (by rw [List.head?_reverse]; exact ha) hc]
  rw [List.reverse_append, List.reverse_reverse]

lemma trimLeftChars_eq_self (l : List Char) (c : Char) (hl : l.head? = some c)
    (hc : isJsWs c = false) : trimLeftChars l = l := by
  cases l with
  | nil => rfl
  | cons c0 l' =>
    have : c0 = c := by simpa using hl
    subst this
    unfold trimLeftChars
    rw [List.dropWhile_cons, if_neg (by simp [hc])]

lemma trimRightChars_eq_self (l : List Char) (c : Char) (hl : l.getLast? = some c)
    (hc : isJsWs c = false) : trimRightChars l = l := by
  unfold trimRightChars
  have hdw : l.reverse.dropWhile (fun x => isJsWs x) = l.reverse := by
    cases hrv : l.reverse with
    | nil => rfl
    | cons c0 r' =>
      have hc0 : c0 = c := by
        have hh := List.head?_reverse l
        rw [hrv, hl] at hh
        simpa using hh
      subst hc0
      rw [List.dropWhile_cons, if_neg (by simp [hc])]
  rw [hdw, List.reverse_reverse]

lemma trimChars_eq_self (l : List Char) (c1 c2 : Char) (h1 : l.head? = some c1)
    (hc1 : isJsWs c1 = false) (h2 : l.getLast? = some c2) (hc2 : isJsWs c2 = false) :
    trimChars l = l := by
  unfold trimChars
  rw [trimLeftChars_eq_self l c1 h1 hc1, trimRightChars_eq_self l c2 h2 hc2]

lemma trimLeftChars_idem (l : List Char) : trimLeftChars (trimLeftChars l) = trimLeftChars l := by
  induction l with
  | nil => rfl
  | cons c l ih =>
    unfold trimLeftChars at ih ⊢
    rw [List.dropWhile_cons]
    split
    · exact ih
    · next hw => rw [List.dropWhile_cons, if_neg hw]

lemma trimRightChars_sublist (l : List Char) : List.Sublist (trimRightChars l) l := by
  unfold trimRightChars
  have h := (List.dropWhile_sublist (l := l.reverse) (fun x => isJsWs x)).reverse
  simpa using h

lemma idxOfChar_append_of_notMem (c : Char) (l1 l2 : List Char) (h : c ∉ l1) :
    idxOfChar c (l1 ++ l2) = (idxOfChar c l2).map (fun k => k + l1.length) := by
  unfold idxOfChar
  rw [List.findIdx?_append]
  rw [List.findIdx?_eq_none_iff.mpr ?_]
  · rw [Option.none_or]
  · intro x hx
    simp only [decide_eq_false_iff_not]
    intro he
    exact h (he ▸ hx)

lemma lastIdxOfChar_of_shape (cl op : Char) (mid W : List Char) (hW : cl ∉ W) :
    lastIdxOfChar cl ((op :: mid ++ [cl]) ++ W) = some (mid.length + 1) := by
  unfold lastIdxOfChar
  rw [List.reverse_append]
  have hrev : (op :: mid ++ [cl]).reverse = cl :: (op :: mid).reverse := by
    rw [show op :: mid ++ [cl] = (op :: mid) ++ [cl] from rfl, List.reverse_append]
    rfl
  rw [hrev]
  rw [List.findIdx?_append]
  rw [List.findIdx?_eq_none_iff.mpr ?_]
  · rw [Option.none_or]
    rw [List.findIdx?_cons]
    rw [if_pos (by simp)]
    simp only [Option.map_some', Option.map_map, Option.some_inj]
    simp only [List.length_append, List.length_cons, List.length_reverse, List.length_nil,
      List.length_singleton]
    omega
  · intro x hx
    simp only [decide_eq_false_iff_not]
    intro he
    subst he
    exact hW (by simpa using hx)

lemma cleanStage1_fenceWrap (p1 mid p2 : List Char) (op cl : Char)
    (hp1b : btk ∉ p1) (hSb : btk ∉ (op :: mid ++ [cl]))
    (hopw : isJsWs op = false) (hclw : isJsWs cl = false) :
    cleanStage1 (fenceWrap p1 (op :: mid ++ [cl]) p2) =
      trimLeftChars p1 ++ ((op :: mid ++ [cl]) ++
        trimRightChars ('\n' :: sfGo false
          (sfjGo false ([btk, btk, btk] ++ trimRightChars p2)))) := by
  set S := op :: mid ++ [cl] with hSdef
  set P1 := trimLeftChars p1 with hP1def
  set P2 := trimRightChars p2 with hP2def
  set T1 := sfjGo false ([btk, btk, btk] ++ P2) with hT1def
  set T2 := sfGo false T1 with hT2def
  have hP1b : btk ∉ P1 := fun hm =>
    hp1b ((List.dropWhile_sublist (l := p1) (fun c => isJsWs c)).mem hm)
  have hStail : btk ∉ mid ++ [cl] := fun hm => hSb (List.mem_cons_of_mem op hm)
  have hSlast : S.getLast? = some cl := by
    rw [hSdef, show op :: mid ++ [cl] = (op :: mid) ++ [cl] from rfl]
    exact List.getLast?_concat _
  have h0 : trimChars (fenceWrap p1 S p2) =
      P1 ++ ([btk, btk, btk, 'j', 's', 'o', 'n', '\n'] ++
        (S ++ (['\n', btk, btk, btk] ++ P2))) := by
    unfold trimChars fenceWrap
    rw [trimLeftChars_append p1 ([btk, btk, btk, 'j', 's', 'o', 'n', '\n'] ++
      (S ++ (['\n', btk, btk, btk] ++ p2))) btk rfl (by decide)]
    have hre : P1 ++ ([btk, btk, btk, 'j', 's', 'o', 'n', '\n'] ++
        (S ++ (['\n', btk, btk, btk] ++ p2)))
        = (P1 ++ [btk, btk, btk, 'j', 's', 'o', 'n', '\n'] ++ S ++ ['\n', btk, btk, btk])
          ++ p2 := by
      simp [List.append_assoc]
    rw [hre]
    rw [trimRightChars_append _ p2 btk ?_ (by decide)]
    · simp [List.append_assoc]
    · rw [List.getLast?_append]
      rfl
  have h1 : sfjGo false (P1 ++ ([btk, btk, btk, 'j', 's', 'o', 'n', '\n'] ++
      (S ++ (['\n', btk, btk, btk] ++ P2)))) = P1 ++ (S ++ ('\n' :: T1)) := by
    rw [sfjGo_false_append P1 _ hP1b]
    have hinner : sfjGo false ([btk, btk, btk, 'j', 's', 'o', 'n', '\n'] ++
        (S ++ (['\n', btk, btk, btk] ++ P2))) = S ++ ('\n' :: T1) := by
      show sfjGo false (btk :: btk :: btk :: 'j' :: 's' :: 'o' :: 'n' ::
        ('\n' :: (S ++ (['\n', btk, btk, btk] ++ P2)))) = S ++ ('\n' :: T1)
      rw [sfjGo, if_pos ⟨rfl, rfl, rfl, rfl, rfl, rfl, rfl⟩]
      rw [sfjGo_skip_ws '\n' _ (by decide)]
      show sfjGo true (op :: ((mid ++ [cl]) ++ (['\n', btk, btk, btk] ++ P2)))
        = S ++ ('\n' :: T1)
      rw [sfjGo_exit_skip op _ (fun h => hSb (h ▸ List.mem_cons_self op _)) hopw]
      rw [sfjGo_false_append (mid ++ [cl]) _ hStail]
      rw [show (['\n', btk, btk, btk] : List Char) ++ P2
          = '\n' :: ([btk, btk, btk] ++ P2) from rfl]
      rw [sfjGo_false_cons '\n' _ (by decide)]
      rw [hSdef]
      simp only [List.append_assoc, List.cons_append, List.nil_append]
      rw [hT1def]
      rfl
    rw [hinner]
  have h2 : sfGo false (P1 ++ (S ++ ('\n' :: T1))) = P1 ++ (S ++ ('\n' :: T2)) := by
    rw [sfGo_false_append P1 _ hP1b, sfGo_false_append S _ hSb,
      sfGo_false_cons '\n' _ (by decide)]
  have h3 : trimChars (P1 ++ (S ++ ('\n' :: T2)))
      = P1 ++ (S ++ trimRightChars ('\n' :: T2)) := by
    unfold trimChars
    rw [trimLeftChars_append P1 (S ++ ('\n' :: T2)) op rfl hopw]
    rw [hP1def, trimLeftChars_idem]
    have hre : trimLeftChars p1 ++ (S ++ ('\n' :: T2))
        = (trimLeftChars p1 ++ S) ++ ('\n' :: T2) := by
      simp [List.append_assoc]
    rw [hre]
    rw [trimRightChars_append _ ('\n' :: T2) cl ?_ hclw]
    · simp [List.append_assoc]
    · rw [List.getLast?_append, hSlast]
      rfl
  show trimChars (sfGo false (sfjGo false (trimChars (fenceWrap p1 S p2)))) = _
  rw [h0, h1, h2, h3]

lemma jsonStartIdx_eq (P1 rest : List Char) (op : Char)
    (hop : op = '[' ∨ op = '\x7b') (hrest : rest.head? = some op)
    (h1 : '[' ∉ P1) (h2 : '\x7b' ∉ P1) :
    jsonStartIdx (P1 ++ rest) = some P1.length := by
  obtain ⟨c0, t, rfl⟩ : ∃ c0 t, rest = c0 :: t := by
    cases rest with
    | nil => simp at hrest
    | cons c0 t => exact ⟨c0, t, rfl⟩
  have hc0 : c0 = op := by simpa using hrest
  subst hc0
  unfold jsonStartIdx
  rw [idxOfChar_append_of_notMem '[' P1 _ h1, idxOfChar_append_of_notMem '\x7b' P1 _ h2]
  rcases hop with rfl | rfl
  · have h0 : idxOfChar '[' ('[' :: t) = some 0 := by
      unfold idxOfChar
      rw [List.findIdx?_cons, if_pos (by simp)]
    rw [h0]
    cases hb : idxOfChar '\x7b' ('[' :: t) with
    | none => simp
    | some b =>
      simp only [Option.map_some', Option.some_inj]
      omega
  · have h0 : idxOfChar '\x7b' ('\x7b' :: t) = some 0 := by
      unfold idxOfChar
      rw [List.findIdx?_cons, if_pos (by simp)]
    rw [h0]
    cases hb : idxOfChar '[' ('\x7b' :: t) with
    | none => simp
    | some b =>
      simp only [Option.map_some', Option.some_inj]
      omega

lemma cleanStage2_append (P1 rest : List Char) (op : Char)
    (hop : op = '[' ∨ op = '\x7b') (hrest : rest.head? = some op)
    (h1 : '[' ∉ P1) (h2 : '\x7b' ∉ P1) :
    cleanStage2 (P1 ++ rest) = rest := by
  have hred : cleanStage2 (P1 ++ rest) =
      if 0 < P1.length then (P1 ++ rest).drop P1.length else P1 ++ rest := by
    unfold cleanStage2
    rw [jsonStartIdx_eq P1 rest op hop hrest h1 h2]
  rw [hred]
  by_cases h : 0 < P1.length
  · rw [if_pos h, List.drop_left]
  · have hP1 : P1 = [] := by
      cases P1 with
      | nil => rfl
      | cons c t => simp at h
    rw [if_neg h, hP1, List.nil_append]

lemma head?_trimRightChars (l : List Char) (c : Char) (hl : l.head? = some c)
    (hc : isJsWs c = false) : (trimRightChars l).head? = some c := by
  obtain ⟨t, rfl⟩ : ∃ t, l = c :: t := by
    cases l with
    | nil => simp at hl
    | cons c0 t =>
      have : c0 = c := by simpa using hl
      subst this
      exact ⟨t, rfl⟩
  unfold trimRightChars
  rw [List.reverse_cons, List.dropWhile_append]
  split
  · rw [show List.dropWhile (fun x => isJsWs x) [c] = [c] from by
      rw [List.dropWhile_cons, if_neg (by simp [hc])]]
    rfl
  · rw [List.reverse_append]
    simp

lemma cleanStage3_of_shape (mid W : List Char) (op cl : Char)
    (hpair : (op = '[' ∧ cl = ']') ∨ (op = '\x7b' ∧ cl = '\x7d'))
    (hW : cl ∉ W) :
    cleanStage3 ((op :: mid ++ [cl]) ++ W) = op :: mid ++ [cl] := by
  have hopw : isJsWs op = false := by rcases hpair with ⟨rfl, -⟩ | ⟨rfl, -⟩ <;> decide
  have hhead : (trimChars ((op :: mid ++ [cl]) ++ W)).head? = some op := by
    unfold trimChars
    rw [trimLeftChars_eq_self ((op :: mid ++ [cl]) ++ W) op rfl hopw]
    exact head?_trimRightChars ((op :: mid ++ [cl]) ++ W) op rfl hopw
  have hlast : lastIdxOfChar cl ((op :: mid ++ [cl]) ++ W) = some (mid.length + 1) :=
    lastIdxOfChar_of_shape cl op mid W hW
  have hred : cleanStage3 ((op :: mid ++ [cl]) ++ W) =
      if 0 < mid.length + 1 ∧
          mid.length + 1 < ((op :: mid ++ [cl]) ++ W).length - 1 then
        ((op :: mid ++ [cl]) ++ W).take (mid.length + 1 + 1)
      else (op :: mid ++ [cl]) ++ W := by
    unfold cleanStage3 jsonEndIdx
    rcases hpair with ⟨rfl, rfl⟩ | ⟨rfl, rfl⟩
    · rw [hhead, if_pos rfl, hlast]
    · rw [hhead, if_neg (by decide), if_pos rfl, hlast]
  rw [hred]
  by_cases hw : W = []
  · subst hw
    rw [if_neg (by
      simp only [List.append_nil, List.length_append, List.length_cons,
        List.length_singleton, List.length_nil]
      omega)]
    simp
  · have hwlen : 0 < W.length := List.length_pos.mpr hw
    rw [if_pos ⟨by omega, by
      simp only [List.length_append, List.length_cons, List.length_singleton,
        List.length_nil]
      omega⟩]
    rw [show mid.length + 1 + 1 = (op :: mid ++ [cl]).length from by simp]
    exact List.take_left _ _

lemma dropWhile_head_false (p : Char → Bool) :
    ∀ (l : List Char) (c : Char) (t : List Char), l.dropWhile p = c :: t → p c = false := by
  intro l
  induction l with
  | nil => intro c t h; simp at h
  | cons c0 l ih =>
    intro c t h
    rw [List.dropWhile_cons] at h
    split at h
    · exact ih c t h
    · next hp =>
      injection h with h1 h2
      subst h1
      simpa using hp

lemma trimLeftChars_trimRightChars (l : List Char) :
    trimLeftChars (trimRightChars (trimLeftChars l)) = trimRightChars (trimLeftChars l) := by
  cases hx : trimLeftChars l with
  | nil => rfl
  | cons c t =>
    have hcw : isJsWs c = false := by
      have := dropWhile_head_false (fun x => isJsWs x) l c t hx
      simpa using this
    have hh : (trimRightChars (c :: t)).head? = some c :=
      head?_trimRightChars (c :: t) c rfl hcw
    cases hy : trimRightChars (c :: t) with
    | nil => rfl
    | cons c' t' =>
      have hc' : c' = c := by
        rw [hy] at hh
        simpa using hh
      rw [hc']
      exact trimLeftChars_eq_self (c :: t') c rfl hcw

lemma trimRightChars_idem (l : List Char) :
    trimRightChars (trimRightChars l) = trimRightChars l := by
  unfold trimRightChars
  rw [List.reverse_reverse]
  have := trimLeftChars_idem l.reverse
  unfold trimLeftChars at this
  rw [this]

lemma trimChars_idem (l : List Char) : trimChars (trimChars l) = trimChars l := by
  unfold trimChars
  rw [trimLeftChars_trimRightChars, trimRightChars_idem]

lemma trimChars_sublist (l : List Char) : List.Sublist (trimChars l) l := by
  unfold trimChars
  exact (trimRightChars_sublist _).trans
    (List.dropWhile_sublist (l := l) (fun c => isJsWs c))

lemma sfjGo_false_id (l : List Char) (h : btk ∉ l) : sfjGo false l = l := by
  have hx := sfjGo_false_append l [] h
  rw [show sfjGo false ([] : List Char) = [] from rfl, List.append_nil] at hx
  exact hx

lemma sfGo_false_id (l : List Char) (h : btk ∉ l) : sfGo false l = l := by
  have hx := sfGo_false_append l [] h
  rw [show sfGo false ([] : List Char) = [] from rfl, List.append_nil] at hx
  exact hx

lemma cleanList_no_brackets (l : List Char) (hb : btk ∉ l) (h1 : '[' ∉ l)
    (h2 : '\x7b' ∉ l) : cleanList l = trimChars l := by
  have hYsub : List.Sublist (trimChars l) l := trimChars_sublist l
  have hY1 : '[' ∉ trimChars l := fun hm => h1 (hYsub.mem hm)
  have hY2 : '\x7b' ∉ trimChars l := fun hm => h2 (hYsub.mem hm)
  have hYb : btk ∉ trimChars l := fun hm => hb (hYsub.mem hm)
  have hs1 : cleanStage1 l = trimChars l := by
    unfold cleanStage1
    rw [sfjGo_false_id _ hYb, sfGo_false_id _ hYb, trimChars_idem]
  have hstart : jsonStartIdx (trimChars l) = none := by
    unfold jsonStartIdx idxOfChar
    rw [List.findIdx?_eq_none_iff.mpr ?_, List.findIdx?_eq_none_iff.mpr ?_]
    · intro x hx
      simp only [decide_eq_false_iff_not]
      intro he
      exact hY2 (he ▸ hx)
    · intro x hx
      simp only [decide_eq_false_iff_not]
      intro he
      exact hY1 (he ▸ hx)
  have hs2 : cleanStage2 (trimChars l) = trimChars l := by
    unfold cleanStage2
    rw [hstart]
  have hnoth : ∀ c : Char, c ∉ trimChars l → (trimChars (trimChars l)).head? ≠ some c := by
    intro c hc habs
    rw [trimChars_idem] at habs
    cases hgy : trimChars l with
    | nil => rw [hgy] at habs; simp at habs
    | cons c0 t =>
      rw [hgy] at habs
      have : c0 = c := by simpa using habs
      subst this
      exact hc (hgy ▸ List.mem_cons_self c0 t)
  have hend : jsonEndIdx (trimChars l) = none := by
    unfold jsonEndIdx
    rw [if_neg (hnoth '[' hY1), if_neg (hnoth '\x7b' hY2)]
  have hs3 : cleanStage3 (trimChars l) = trimChars l := by
    unfold cleanStage3
    rw [hend]
  unfold cleanList
  rw [hs1, hs2, hs3, trimChars_idem]

lemma cleanList_fenceWrap (p1 mid p2 : List Char) (op cl : Char)
    (hpair : (op = '[' ∧ cl = ']') ∨ (op = '\x7b' ∧ cl = '\x7d'))
    (hp1b : btk ∉ p1) (hp1o : '[' ∉ p1) (hp1c : '\x7b' ∉ p1)
    (hSb : btk ∉ (op :: mid ++ [cl])) (hp2 : cl ∉ p2) :
    cleanList (fenceWrap p1 (op :: mid ++ [cl]) p2) = op :: mid ++ [cl] := by
  have hopw : isJsWs op = false := by rcases hpair with ⟨rfl, -⟩ | ⟨rfl, -⟩ <;> decide
  have hclw : isJsWs cl = false := by rcases hpair with ⟨-, rfl⟩ | ⟨-, rfl⟩ <;> decide
  have hclnb : cl ≠ btk := by rcases hpair with ⟨-, rfl⟩ | ⟨-, rfl⟩ <;> decide
  have hclnn : cl ≠ '\n' := by rcases hpair with ⟨-, rfl⟩ | ⟨-, rfl⟩ <;> decide
  have hop : op = '[' ∨ op = '\x7b' := by
    rcases hpair with ⟨rfl, -⟩ | ⟨rfl, -⟩
    · exact Or.inl rfl
    · exact Or.inr rfl
  have hWnc : cl ∉ trimRightChars ('\n' :: sfGo false
      (sfjGo false ([btk, btk, btk] ++ trimRightChars p2))) := by
    intro hm
    have hm1 : cl ∈ '\n' :: sfGo false (sfjGo false ([btk, btk, btk] ++ trimRightChars p2)) :=
      (trimRightChars_sublist _).mem hm
    rcases List.mem_cons.mp hm1 with he | hm2
    · exact hclnn he
    · have hsub : List.Sublist (sfGo false (sfjGo false ([btk, btk, btk] ++ trimRightChars p2)))
          ([btk, btk, btk] ++ trimRightChars p2) :=
        (sfGo_sublist _ _).trans (sfjGo_sublist _ _)
      have hm3 : cl ∈ [btk, btk, btk] ++ trimRightChars p2 := hsub.mem hm2
      rcases List.mem_append.mp hm3 with hm4 | hm5
      · have h : cl = btk := by simpa using hm4
        exact hclnb h
      · exact hp2 ((trimRightChars_sublist p2).mem hm5)
  have hP1sub : List.Sublist (trimLeftChars p1) p1 :=
    List.dropWhile_sublist (l := p1) (fun c => isJsWs c)
  unfold cleanList
  rw [cleanStage1_fenceWrap p1 mid p2 op cl hp1b hSb hopw hclw]
  rw [cleanStage2_append (trimLeftChars p1)
    ((op :: mid ++ [cl]) ++ trimRightChars ('\n' :: sfGo false
      (sfjGo false ([btk, btk, btk] ++ trimRightChars p2)))) op hop rfl
    (fun hm => hp1o (hP1sub.mem hm)) (fun hm => hp1c (hP1sub.mem hm))]
  rw [cleanStage3_of_shape mid _ op cl hpair hWnc]
  refine trimChars_eq_self _ op cl rfl hopw ?_ hclw
  rw [show op :: mid ++ [cl] = (op :: mid) ++ [cl] from rfl]
  exact List.getLast?_concat _

lemma jsonChars_container_shape (V : JsonVal) (h : jsonIsContainer V = true) :
    ∃ op mid, ((op = '[' ∧ jsonCloser V = ']') ∨ (op = '\x7b' ∧ jsonCloser V = '\x7d')) ∧
      jsonChars V = op :: mid ++ [jsonCloser V] := by
  cases V with
  | arr elems =>
    refine ⟨'[', jsonArrChars elems, Or.inl ⟨rfl, rfl⟩, ?_⟩
    rw [jsonChars]
    rfl
  | obj fields =>
    refine ⟨'\x7b', jsonObjChars fields, Or.inr ⟨rfl, rfl⟩, ?_⟩
    rw [jsonChars]
    rfl
  | null => simp [jsonIsContainer] at h
  | bool b => simp [jsonIsContainer] at h
  | num n => simp [jsonIsContainer] at h
  | str s => simp [jsonIsContainer] at h

/-- C5 fails as stated.  First failure: the fence-stripping regexes also
delete backtick runs inside JSON string literals, so wrapping
the JSON serialization of a one-element array whose string holds three
backticks in a fence plus prose sanitizes to the serialization of `[""]` —
a well-formed string that parses to a value NOT deep-equal to the original.
Second failure: an input with no `[` or `{` is still fence-stripped, so it
is not returned "trimmed but unchanged". -/
theorem cleanJSONResponse_roundtrip_counterexample :
    cleanList (fenceWrap ("Answer:\n".data)
        (jsonChars (.arr [.str (String.mk [btk, btk, btk])])) ("\nThanks.".data))
      = jsonChars (.arr [.str ""]) ∧
    String.mk [btk, btk, btk] ≠ "" ∧
    cleanList [btk, btk, btk, 'h', 'i'] = ['h', 'i'] ∧
    trimChars [btk, btk, btk, 'h', 'i'] = [btk, btk, btk, 'h', 'i'] ∧
    (['h', 'i'] : List Char) ≠ [btk, btk, btk, 'h', 'i'] := by
  refine ⟨by decide, by decide, by decide, by decide, by decide⟩

/-- C5 amended: (1) for every JSON array or object `V` whose serialization
contains no backtick, wrapping `JSON.stringify(V)` in a markdown code fence
with leading prose free of backticks and of both opening brackets, and
trailing prose free of backticks' effects that matter — i.e. not containing
`V`'s closing bracket — sanitizes to exactly `JSON.stringify(V)` (which
parses back to `V`); (2) an input containing no `[` or `{` is returned
trimmed, unchanged except for fence-marker removal — hence exactly trimmed
when it also contains no backtick. -/
theorem cleanJSONResponse_extracts_payload :
    (∀ (V : JsonVal) (p1 p2 : List Char),
      jsonIsContainer V = true →
      btk ∉ jsonChars V →
      btk ∉ p1 → '[' ∉ p1 → '\x7b' ∉ p1 →
      jsonCloser V ∉ p2 →
      cleanList (fenceWrap p1 (jsonChars V) p2) = jsonChars V) ∧
    (∀ l : List Char, btk ∉ l → '[' ∉ l → '\x7b' ∉ l → cleanList l = trimChars l) := by
  constructor
  · intro V p1 p2 hcont hVb hp1b hp1o hp1c hp2
    obtain ⟨op, mid, hpair, hshape⟩ := jsonChars_container_shape V hcont
    rw [hshape] at hVb ⊢
    exact cleanList_fenceWrap p1 mid p2 op (jsonCloser V) hpair hp1b hp1o hp1c hVb hp2
  · intro l hb h1 h2
    exact cleanList_no_brackets l hb h1 h2

/-- Witness for the amended C5: a concrete array payload wrapped in a fence
with prose on both sides sanitizes back to its exact serialization, and a
bracket-free, backtick-free input is returned trimmed. -/
theorem cleanJSONResponse_extracts_payload_witness :
    cleanList (fenceWrap "Sure! Here you go: ".data (jsonChars (.arr [.num 1, .num 2]))
        " Hope this helps.".data) = jsonChars (.arr [.num 1, .num 2]) ∧
    cleanList "   no json here at all   ".data = trimChars "   no json here at all   ".data := by
  constructor
  · exact cleanJSONResponse_extracts_payload.1 (.arr [.num 1, .num 2])
      "Sure! Here you go: ".data " Hope this helps.".data
      rfl (by decide) (by decide) (by decide) (by decide) (by decide)
  · exact cleanJSONResponse_extracts_payload.2 "   no json here at all   ".data
      (by decide) (by decide) (by decide)
